import Mathlib

/-!
Verification of the Emberv3 task-management agent
(`src/agents/task_manager.py`) against its natural-language
specification.

The development has three parts:

1. A faithful embedding of CPython's `heapq` algorithms
   (`heappush` / `heappop`), which is what `queue.PriorityQueue`
   uses for `put` / `get`.  `Task.__lt__` compares only
   `priority.value`, so heap entries are modelled as pairs
   `(priority value, task id)` ordered by the first component only.

2. A state-transition model of `TaskManager` and `AgentWorker`:
   `add_task`, `get_next_task`, `_execute_task` (split into the
   claim phase and the finish phase, matching the two moments a
   running worker mutates a task), `retry_task`,
   `update_task_status`, `_can_execute_task`,
   `_check_dependent_tasks` and `cancel_task`.

3. Theorems settling the specification claims, including the
   reachability invariant of the task manager state.
-/

set_option maxHeartbeats 1600000

namespace Emberv3

/-! ## Part 1: CPython heapq, specialised to entries `(key, id)`.

`Task.__lt__` is `self.priority.value < other.priority.value`, so the
comparison used by the heap looks only at the first component. -/

/-- A heap entry: `(priority ordinal, task id)`.  Comparison
(`Task.__lt__`) uses only the first component. -/
abbrev HEntry := Nat × Nat

/-- `Task.__lt__`: compare priority ordinals only. -/
def entryLt (a b : HEntry) : Bool := a.1 < b.1

/-- CPython `heapq._siftdown(heap, startpos, pos)`: bubble the new item
at `pos` up towards `startpos`, moving larger parents down. -/
def siftdownAux : Nat → List HEntry → Nat → Nat → HEntry → List HEntry
  | 0, l, _, pos, newitem => l.set pos newitem
  | fuel + 1, l, startpos, pos, newitem =>
      if startpos < pos then
        if entryLt newitem (l.getD ((pos - 1) / 2) newitem) then
          siftdownAux fuel (l.set pos (l.getD ((pos - 1) / 2) newitem))
            startpos ((pos - 1) / 2) newitem
        else
          l.set pos newitem
      else
        l.set pos newitem

/-- `pos` strictly decreases on every iteration of `_siftdown`, so any
fuel above `pos` computes the same list: the fuel never runs out. -/
theorem siftdownAux_fuel_irrelevant :
    ∀ (f1 : Nat) (l : List HEntry) (s p : Nat) (x : HEntry) (f2 : Nat),
      p < f1 → p < f2 → siftdownAux f1 l s p x = siftdownAux f2 l s p x := by
  intro f1
  induction f1 with
  | zero => intro l s p x f2 h1; omega
  | succ f1 ih =>
      intro l s p x f2 h1 h2
      cases f2 with
      | zero => omega
      | succ f2 =>
          simp only [siftdownAux]
          by_cases hs : s < p
          · rw [if_pos hs, if_pos hs]
            by_cases hlt : entryLt x (l.getD ((p - 1) / 2) x)
            · rw [if_pos hlt, if_pos hlt]
              exact ih _ s ((p - 1) / 2) x f2 (by omega) (by omega)
            · rw [if_neg hlt, if_neg hlt]
          · rw [if_neg hs, if_neg hs]

/-- CPython `heapq.heappush`: append, then sift the new leaf up.  The
fuel `l.length + 1` exceeds the new item's position. -/
def heapPush (l : List HEntry) (x : HEntry) : List HEntry :=
  siftdownAux (l.length + 1) (l ++ [x]) 0 l.length x

/-- The child of `pos` selected by CPython `heapq._siftup`: the right
child if it exists and the left child is not strictly smaller,
otherwise the left child. -/
def childSel (l : List HEntry) (pos : Nat) (d : HEntry) : Nat :=
  if 2 * pos + 2 < l.length ∧
      ¬ entryLt (l.getD (2 * pos + 1) d) (l.getD (2 * pos + 2) d) then
    2 * pos + 2
  else
    2 * pos + 1

theorem childSel_lt_length (l : List HEntry) (pos : Nat) (d : HEntry)
    (h : 2 * pos + 1 < l.length) : childSel l pos d < l.length := by
  unfold childSel
  split
  next h2 => exact h2.1
  next => exact h

theorem pos_lt_childSel (l : List HEntry) (pos : Nat) (d : HEntry) :
    pos < childSel l pos d := by
  unfold childSel
  split <;> omega

/-- CPython `heapq._siftup(heap, pos)`: move the hole at `pos` down to
a leaf, always following the selected child, then place `newitem` in
the leaf and bubble it up with `_siftdown`.  `startpos` is the position
the hole started at (`0` for `heappop`). -/
def siftupAux : Nat → List HEntry → Nat → Nat → HEntry → List HEntry
  | 0, l, startpos, pos, newitem =>
      siftdownAux (pos + 1) l startpos pos newitem
  | fuel + 1, l, startpos, pos, newitem =>
      if 2 * pos + 1 < l.length then
        siftupAux fuel
          (l.set pos (l.getD (childSel l pos newitem) newitem)) startpos
          (childSel l pos newitem) newitem
      else
        siftdownAux (pos + 1) l startpos pos newitem

/-- `pos` strictly increases below `l.length` on every iteration of
`_siftup`, so any fuel at least `l.length - pos` computes the same
list: the fuel never runs out. -/
theorem siftupAux_fuel_irrelevant :
    ∀ (f1 : Nat) (l : List HEntry) (s p : Nat) (x : HEntry) (f2 : Nat),
      l.length - p ≤ f1 → l.length - p ≤ f2 →
      siftupAux f1 l s p x = siftupAux f2 l s p x := by
  intro f1
  induction f1 with
  | zero =>
      intro l s p x f2 h1 _
      cases f2 with
      | zero => rfl
      | succ f2 =>
          simp only [siftupAux]
          rw [if_neg (by omega)]
  | succ f1 ih =>
      intro l s p x f2 h1 h2
      cases f2 with
      | zero =>
          simp only [siftupAux]
          rw [if_neg (by omega)]
      | succ f2 =>
          simp only [siftupAux]
          by_cases h : 2 * p + 1 < l.length
          · rw [if_pos h, if_pos h]
            have hc := childSel_lt_length l p x h
            have hp := pos_lt_childSel l p x
            have hlen : (l.set p (l.getD (childSel l p x) x)).length
                = l.length := by simp
            exact ih _ s (childSel l p x) x f2 (by omega) (by omega)
          · rw [if_neg h, if_neg h]

/-- CPython `heapq.heappop`: pop the last element; if the heap is still
non-empty, replace the root with the last element, return the old root,
and sift the new root down.  The fuel `rest.length + 1` is the length
of the remaining heap. -/
def heapPop (l : List HEntry) : Option (HEntry × List HEntry) :=
  match l.dropLast, l.getLast? with
  | _, none => none
  | [], some lastelt => some (lastelt, [])
  | ret :: rest, some lastelt =>
      some (ret, siftupAux (rest.length + 1) ((ret :: rest).set 0 lastelt)
        0 0 lastelt)

/-- Lengths are preserved by `_siftdown`. -/
theorem length_siftdownAux :
    ∀ (fuel : Nat) (l : List HEntry) (s p : Nat) (x : HEntry),
      (siftdownAux fuel l s p x).length = l.length := by
  intro fuel
  induction fuel with
  | zero => intro l s p x; simp [siftdownAux]
  | succ fuel ih =>
      intro l s p x
      simp only [siftdownAux]
      by_cases hs : s < p
      · rw [if_pos hs]
        by_cases hlt : entryLt x (l.getD ((p - 1) / 2) x)
        · rw [if_pos hlt, ih]
          simp
        · rw [if_neg hlt]
          simp
      · rw [if_neg hs]
        simp

/-- Lengths are preserved by `_siftup`. -/
theorem length_siftupAux :
    ∀ (fuel : Nat) (l : List HEntry) (s p : Nat) (x : HEntry),
      (siftupAux fuel l s p x).length = l.length := by
  intro fuel
  induction fuel with
  | zero => intro l s p x; simp [siftupAux, length_siftdownAux]
  | succ fuel ih =>
      intro l s p x
      simp only [siftupAux]
      by_cases h : 2 * p + 1 < l.length
      · rw [if_pos h, ih]
        simp
      · rw [if_neg h]
        simp [length_siftdownAux]

/-! ### List helpers for the heap proofs -/

theorem getD_set_self (l : List HEntry) (i : Nat) (a d : HEntry)
    (h : i < l.length) : (l.set i a).getD i d = a := by
  simp [List.getD, List.getElem?_set_self h]

theorem getD_set_ne (l : List HEntry) (i j : Nat) (a d : HEntry)
    (h : i ≠ j) : (l.set i a).getD j d = l.getD j d := by
  simp [List.getD, List.getElem?_set_ne h]

theorem set_getD_self (l : List HEntry) (i : Nat) (d : HEntry)
    (h : i < l.length) : l.set i (l.getD i d) = l := by
  apply List.ext_getElem?
  intro n
  by_cases hn : n = i
  · subst hn
    rw [List.getElem?_set_self h, List.getD_eq_getElem l d h,
      List.getElem?_eq_getElem h]
  · exact List.getElem?_set_ne (fun hh => hn hh.symm)

/-- Swapping the head with the element written at position `k`. -/
theorem cons_set_perm (a b : HEntry) :
    ∀ (t : List HEntry) (k : Nat), k < t.length →
      (a :: t.set k b).Perm (b :: t.set k a) := by
  intro t
  induction t with
  | nil => intro k hk; simp at hk
  | cons y u ih =>
      intro k hk
      cases k with
      | zero =>
          simp only [List.set_cons_zero]
          exact List.Perm.swap b a u
      | succ k =>
          simp only [List.set_cons_succ]
          have h1 : (a :: y :: u.set k b).Perm (y :: a :: u.set k b) :=
            List.Perm.swap y a _
          have h2 : (y :: a :: u.set k b).Perm (y :: b :: u.set k a) :=
            List.Perm.cons y (ih k (by simpa using hk))
          have h3 : (y :: b :: u.set k a).Perm (b :: y :: u.set k a) :=
            List.Perm.swap b y _
          exact (h1.trans h2).trans h3

/-- Writing `a` at `i` and `b` at `j` is a permutation of writing `b`
at `i` and `a` at `j`. -/
theorem set_set_perm (a b : HEntry) :
    ∀ (l : List HEntry) (i j : Nat), i < j → j < l.length →
      ((l.set i a).set j b).Perm ((l.set i b).set j a) := by
  intro l
  induction l with
  | nil => intro i j _ hj; simp at hj
  | cons x t ih =>
      intro i j hij hj
      cases i with
      | zero =>
          cases j with
          | zero => omega
          | succ k =>
              simp only [List.set_cons_zero, List.set_cons_succ]
              exact cons_set_perm a b t k (by simpa using hj)
      | succ i =>
          cases j with
          | zero => omega
          | succ k =>
              simp only [List.set_cons_succ]
              exact List.Perm.cons x (ih i k (by omega) (by simpa using hj))

/-- `set_set_perm` for arbitrary distinct in-range positions. -/
theorem set_set_perm_ne (a b : HEntry) (l : List HEntry) (i j : Nat)
    (hij : i ≠ j) (hi : i < l.length) (hj : j < l.length) :
    ((l.set i a).set j b).Perm ((l.set i b).set j a) := by
  rcases lt_or_gt_of_ne hij with h | h
  · exact set_set_perm a b l i j h hj
  · rw [List.set_comm a b l hij, List.set_comm b a l hij]
    exact set_set_perm b a l j i h hi

/-! ### heapq operations permute the multiset of entries -/

theorem perm_siftdownAux :
    ∀ (fuel : Nat) (l : List HEntry) (s p : Nat) (x : HEntry),
      p < l.length → (siftdownAux fuel l s p x).Perm (l.set p x) := by
  intro fuel
  induction fuel with
  | zero =>
      intro l s p x _
      exact List.Perm.refl _
  | succ fuel ih =>
      intro l s p x hp
      simp only [siftdownAux]
      by_cases hs : s < p
      case neg =>
        rw [if_neg hs]
      case pos =>
      rw [if_pos hs]
      by_cases hlt : entryLt x (l.getD ((p - 1) / 2) x)
      case neg =>
        rw [if_neg hlt]
      case pos =>
      rw [if_pos hlt]
      have hpp : (p - 1) / 2 < p := by omega
      have hpplen : (p - 1) / 2 < l.length := lt_trans hpp hp
      have step1 : (siftdownAux fuel (l.set p (l.getD ((p - 1) / 2) x)) s
          ((p - 1) / 2) x).Perm
          ((l.set p (l.getD ((p - 1) / 2) x)).set ((p - 1) / 2) x) :=
        ih _ s ((p - 1) / 2) x (by simpa using hpplen)
      have step2 : ((l.set p (l.getD ((p - 1) / 2) x)).set
          ((p - 1) / 2) x).Perm ((l.set p x).set ((p - 1) / 2)
            (l.getD ((p - 1) / 2) x)) :=
        set_set_perm_ne (l.getD ((p - 1) / 2) x) x l p ((p - 1) / 2)
          (by omega) hp hpplen
      have step3 : (l.set p x).set ((p - 1) / 2)
          (l.getD ((p - 1) / 2) x) = l.set p x := by
        have hg : (l.set p x).getD ((p - 1) / 2) x
            = l.getD ((p - 1) / 2) x :=
          getD_set_ne l p ((p - 1) / 2) x x (by omega)
        have h4 := set_getD_self (l.set p x) ((p - 1) / 2) x
          (by simpa using hpplen)
        rwa [hg] at h4
      rw [step3] at step2
      exact step1.trans step2

theorem perm_siftupAux :
    ∀ (fuel : Nat) (l : List HEntry) (s p : Nat) (x : HEntry),
      p < l.length → (siftupAux fuel l s p x).Perm (l.set p x) := by
  intro fuel
  induction fuel with
  | zero =>
      intro l s p x hp
      exact perm_siftdownAux (p + 1) l s p x hp
  | succ fuel ih =>
      intro l s p x hp
      simp only [siftupAux]
      by_cases h : 2 * p + 1 < l.length
      case neg =>
        rw [if_neg h]
        exact perm_siftdownAux (p + 1) l s p x hp
      case pos =>
      rw [if_pos h]
      have hc : childSel l p x < l.length := childSel_lt_length l p x h
      have hpc : p < childSel l p x := pos_lt_childSel l p x
      have step1 : (siftupAux fuel
          (l.set p (l.getD (childSel l p x) x)) s
          (childSel l p x) x).Perm
          ((l.set p (l.getD (childSel l p x) x)).set (childSel l p x) x) :=
        ih _ s (childSel l p x) x (by simpa using hc)
      have step2 : ((l.set p (l.getD (childSel l p x) x)).set
          (childSel l p x) x).Perm
          ((l.set p x).set (childSel l p x)
            (l.getD (childSel l p x) x)) :=
        set_set_perm_ne (l.getD (childSel l p x) x) x l p
          (childSel l p x) (by omega) hp hc
      have step3 : (l.set p x).set (childSel l p x)
          (l.getD (childSel l p x) x) = l.set p x := by
        have hg : (l.set p x).getD (childSel l p x) x
            = l.getD (childSel l p x) x :=
          getD_set_ne l p (childSel l p x) x x (by omega)
        have h4 := set_getD_self (l.set p x) (childSel l p x) x
          (by simpa using hc)
        rwa [hg] at h4
      rw [step3] at step2
      exact step1.trans step2

theorem heapPush_perm (l : List HEntry) (x : HEntry) :
    (heapPush l x).Perm (x :: l) := by
  unfold heapPush
  have h1 : (siftdownAux (l.length + 1) (l ++ [x]) 0 l.length x).Perm
      ((l ++ [x]).set l.length x) :=
    perm_siftdownAux (l.length + 1) (l ++ [x]) 0 l.length x (by simp)
  have h2 : (l ++ [x]).set l.length x = l ++ [x] := by
    have hg : (l ++ [x]).getD l.length x = x := by simp [List.getD]
    have h3 := set_getD_self (l ++ [x]) l.length x (by simp)
    rwa [hg] at h3
  rw [h2] at h1
  exact h1.trans (List.perm_append_singleton x l)

theorem heapPop_singleton (x : HEntry) : heapPop [x] = some (x, []) := rfl

theorem heapPop_cons_concat (ret : HEntry) (rest : List HEntry)
    (lastelt : HEntry) :
    heapPop ((ret :: rest) ++ [lastelt])
      = some (ret, siftupAux (rest.length + 1) ((ret :: rest).set 0 lastelt)
          0 0 lastelt) := by
  rw [heapPop.eq_def]
  rw [List.dropLast_concat, List.getLast?_concat]

theorem heapPop_perm (l : List HEntry) (x : HEntry) (l2 : List HEntry)
    (h : heapPop l = some (x, l2)) : l.Perm (x :: l2) := by
  induction l using List.reverseRecOn with
  | nil => simp [heapPop] at h
  | append_singleton init lastelt _ =>
      cases init with
      | nil =>
          simp only [List.nil_append] at h ⊢
          rw [heapPop_singleton] at h
          cases h
          rfl
      | cons ret rest =>
          rw [heapPop_cons_concat] at h
          injection h with h
          injection h with h1 h2
          subst h1
          subst h2
          have hsift : (siftupAux (rest.length + 1)
              ((ret :: rest).set 0 lastelt) 0 0
              lastelt).Perm (((ret :: rest).set 0 lastelt).set 0 lastelt) :=
            perm_siftupAux (rest.length + 1) _ 0 0 lastelt (by simp)
          have hset : ((ret :: rest).set 0 lastelt).set 0 lastelt
              = lastelt :: rest := by simp
          rw [hset] at hsift
          have hmain : ((ret :: rest) ++ [lastelt]).Perm
              (ret :: lastelt :: rest) := by
            have : (rest ++ [lastelt]).Perm (lastelt :: rest) :=
              List.perm_append_singleton lastelt rest
            simpa using List.Perm.cons ret this
          exact hmain.trans (List.Perm.cons ret hsift.symm)

theorem heapPop_length (l : List HEntry) (x : HEntry) (l2 : List HEntry)
    (h : heapPop l = some (x, l2)) : l.length = l2.length + 1 := by
  simpa using (heapPop_perm l x l2 h).length_eq

/-! ### The binary-heap invariant and its preservation -/

/-- The priority key stored at index `i` (0 past the end). -/
def keyAt (l : List HEntry) (i : Nat) : Nat := (l.getD i (0, 0)).1

/-- The binary min-heap property on priority keys: every node is
`≤`-bounded by its parent `(j-1)/2`. -/
def IsHeap (l : List HEntry) : Prop :=
  ∀ j, 0 < j → j < l.length → keyAt l ((j - 1) / 2) ≤ keyAt l j

theorem keyAt_set_self (l : List HEntry) (i : Nat) (a : HEntry)
    (h : i < l.length) : keyAt (l.set i a) i = a.1 := by
  unfold keyAt
  rw [getD_set_self l i a _ h]

theorem keyAt_set_ne (l : List HEntry) (i j : Nat) (a : HEntry)
    (h : i ≠ j) : keyAt (l.set i a) j = keyAt l j := by
  unfold keyAt
  rw [getD_set_ne l i j a _ h]

theorem keyAt_getD (l : List HEntry) (i : Nat) (d : HEntry)
    (h : i < l.length) : (l.getD i d).1 = keyAt l i := by
  unfold keyAt
  rw [List.getD_eq_getElem l d h, List.getD_eq_getElem l _ h]

theorem keyAt_append_left (l l2 : List HEntry) (j : Nat)
    (h : j < l.length) : keyAt (l ++ l2) j = keyAt l j := by
  unfold keyAt
  simp [List.getD, List.getElem?_append_left h]

theorem entryLt_iff (a b : HEntry) : entryLt a b = true ↔ a.1 < b.1 := by
  simp [entryLt]

theorem childSel_parent (l : List HEntry) (p : Nat) (d : HEntry) :
    (childSel l p d - 1) / 2 = p := by
  unfold childSel
  split <;> omega

theorem childSel_min (l : List HEntry) (p : Nat) (d : HEntry)
    (hl : 2 * p + 1 < l.length) (j : Nat) (hj0 : 0 < j)
    (hjl : j < l.length) (hpar : (j - 1) / 2 = p) :
    keyAt l (childSel l p d) ≤ keyAt l j := by
  have hj : j = 2 * p + 1 ∨ j = 2 * p + 2 := by omega
  unfold childSel
  split
  next h2 =>
      have hle : keyAt l (2 * p + 2) ≤ keyAt l (2 * p + 1) := by
        have h3 := h2.2
        rw [entryLt_iff, keyAt_getD l _ d hl, keyAt_getD l _ d h2.1] at h3
        omega
      rcases hj with hj | hj
      · rw [hj]; exact hle
      · rw [hj]
  next h2 =>
      rcases hj with hj | hj
      · rw [hj]
      · rw [hj] at hjl ⊢
        have h3 : entryLt (l.getD (2 * p + 1) d) (l.getD (2 * p + 2) d)
            = true := by
          by_contra hc
          exact h2 ⟨hjl, fun hcc => hc (by simpa using hcc)⟩
        rw [entryLt_iff, keyAt_getD l _ d hl, keyAt_getD l _ d hjl] at h3
        omega

/-- Correctness of the bubble-up phase (`_siftdown` with `startpos 0`):
if the array is a heap everywhere except along the edge into the hole
position `p` (conditions stated over `l.set p x`, where `x` is the item
logically occupying the hole), and the grandparent of the hole bounds
the hole's children, then sifting down yields a heap. -/
theorem isHeap_siftdownAux (fuel : Nat) :
    ∀ (l : List HEntry) (p : Nat) (x : HEntry), p < fuel → p < l.length →
    (∀ j, 0 < j → j < l.length → j ≠ p →
      keyAt (l.set p x) ((j - 1) / 2) ≤ keyAt (l.set p x) j) →
    (∀ j, 0 < j → j < l.length → (j - 1) / 2 = p → 0 < p →
      keyAt l ((p - 1) / 2) ≤ keyAt l j) →
    IsHeap (siftdownAux fuel l 0 p x) := by
  induction fuel with
  | zero =>
    intro l p x hf
    omega
  | succ fuel ih =>
    intro l p x hf hp hA hB
    simp only [siftdownAux]
    by_cases h0 : 0 < p
    · rw [if_pos h0]
      have hpplt : (p - 1) / 2 < p := by omega
      have hpplen : (p - 1) / 2 < l.length := lt_trans hpplt hp
      by_cases hlt : entryLt x (l.getD ((p - 1) / 2) x) = true
      · rw [if_pos hlt]
        rw [entryLt_iff, keyAt_getD l _ x hpplen] at hlt
        apply ih (l.set p (l.getD ((p - 1) / 2) x)) ((p - 1) / 2) x
          (by omega) (by simpa using hpplen)
        · -- heap-except-hole for the new hole position
          intro j hj0 hjlen hjne
          simp only [List.length_set] at hjlen
          by_cases hjp : j = p
          · subst hjp
            have e1 : keyAt ((l.set j (l.getD ((j - 1) / 2) x)).set
                ((j - 1) / 2) x) ((j - 1) / 2) = x.1 :=
              keyAt_set_self _ _ _ (by simpa using hpplen)
            have e2 : keyAt ((l.set j (l.getD ((j - 1) / 2) x)).set
                ((j - 1) / 2) x) j = (l.getD ((j - 1) / 2) x).1 := by
              rw [keyAt_set_ne _ _ _ _ (by omega),
                keyAt_set_self _ _ _ hp]
            rw [e1, e2, keyAt_getD l _ x hpplen]
            omega
          · by_cases hparp : (j - 1) / 2 = p
            · have hjgt : p < j := by omega
              have e1 : keyAt ((l.set p (l.getD ((p - 1) / 2) x)).set
                  ((p - 1) / 2) x) ((j - 1) / 2)
                  = (l.getD ((p - 1) / 2) x).1 := by
                rw [hparp, keyAt_set_ne _ _ _ _ (by omega),
                  keyAt_set_self _ _ _ hp]
              have e2 : keyAt ((l.set p (l.getD ((p - 1) / 2) x)).set
                  ((p - 1) / 2) x) j = keyAt l j := by
                rw [keyAt_set_ne _ _ _ _ (by omega),
                  keyAt_set_ne _ _ _ _ (by omega)]
              rw [e1, e2, keyAt_getD l _ x hpplen]
              exact hB j hj0 hjlen hparp h0
            · by_cases hparpp : (j - 1) / 2 = (p - 1) / 2
              · have hAj := hA j hj0 hjlen hjp
                rw [keyAt_set_ne _ _ _ _ (by omega),
                  keyAt_set_ne _ _ _ _ (by omega)] at hAj
                have e1 : keyAt ((l.set p (l.getD ((p - 1) / 2) x)).set
                    ((p - 1) / 2) x) ((j - 1) / 2) = x.1 := by
                  rw [hparpp]
                  exact keyAt_set_self _ _ _ (by simpa using hpplen)
                have e2 : keyAt ((l.set p (l.getD ((p - 1) / 2) x)).set
                    ((p - 1) / 2) x) j = keyAt l j := by
                  rw [keyAt_set_ne _ _ _ _ (by omega),
                    keyAt_set_ne _ _ _ _ (by omega)]
                rw [e1, e2]
                rw [hparpp] at hAj
                omega
              · have hAj := hA j hj0 hjlen hjp
                rw [keyAt_set_ne _ _ _ _ (by omega),
                  keyAt_set_ne _ _ _ _ (by omega)] at hAj
                have e1 : keyAt ((l.set p (l.getD ((p - 1) / 2) x)).set
                    ((p - 1) / 2) x) ((j - 1) / 2) = keyAt l ((j - 1) / 2) := by
                  rw [keyAt_set_ne _ _ _ _ (by omega),
                    keyAt_set_ne _ _ _ _ (by omega)]
                have e2 : keyAt ((l.set p (l.getD ((p - 1) / 2) x)).set
                    ((p - 1) / 2) x) j = keyAt l j := by
                  rw [keyAt_set_ne _ _ _ _ (by omega),
                    keyAt_set_ne _ _ _ _ (by omega)]
                rw [e1, e2]
                exact hAj
        · -- grandparent-bridge for the new hole position
          intro j hj0 hjlen hjpar hpp0
          simp only [List.length_set] at hjlen
          have hppplt : ((p - 1) / 2 - 1) / 2 < (p - 1) / 2 := by omega
          by_cases hjp : j = p
          · have hApp := hA ((p - 1) / 2) hpp0 hpplen (by omega)
            rw [keyAt_set_ne _ _ _ _ (by omega),
              keyAt_set_ne _ _ _ _ (by omega)] at hApp
            have e1 : keyAt (l.set p (l.getD ((p - 1) / 2) x))
                (((p - 1) / 2 - 1) / 2) = keyAt l (((p - 1) / 2 - 1) / 2) :=
              keyAt_set_ne _ _ _ _ (by omega)
            have e2 : keyAt (l.set p (l.getD ((p - 1) / 2) x)) j
                = (l.getD ((p - 1) / 2) x).1 := by
              rw [hjp]
              exact keyAt_set_self _ _ _ hp
            rw [e1, e2, keyAt_getD l _ x hpplen]
            exact hApp
          · have hjgtpp : (p - 1) / 2 < j := by omega
            have hApp := hA ((p - 1) / 2) hpp0 hpplen (by omega)
            rw [keyAt_set_ne _ _ _ _ (by omega),
              keyAt_set_ne _ _ _ _ (by omega)] at hApp
            have hAj := hA j hj0 hjlen hjp
            rw [keyAt_set_ne _ _ _ _ (by omega),
              keyAt_set_ne _ _ _ _ (by omega), hjpar] at hAj
            have e1 : keyAt (l.set p (l.getD ((p - 1) / 2) x))
                (((p - 1) / 2 - 1) / 2) = keyAt l (((p - 1) / 2 - 1) / 2) :=
              keyAt_set_ne _ _ _ _ (by omega)
            have e2 : keyAt (l.set p (l.getD ((p - 1) / 2) x)) j
                = keyAt l j := keyAt_set_ne _ _ _ _ (by omega)
            rw [e1, e2]
            omega
      · rw [if_neg hlt]
        rw [entryLt_iff, keyAt_getD l _ x hpplen] at hlt
        intro j hj0 hjlen
        simp only [List.length_set] at hjlen
        by_cases hjp : j = p
        · subst hjp
          have e1 : keyAt (l.set j x) ((j - 1) / 2) = keyAt l ((j - 1) / 2) :=
            keyAt_set_ne _ _ _ _ (by omega)
          have e2 : keyAt (l.set j x) j = x.1 := keyAt_set_self _ _ _ hp
          rw [e1, e2]
          omega
        · exact hA j hj0 hjlen hjp
    · rw [if_neg h0]
      have hp0 : p = 0 := by omega
      intro j hj0 hjlen
      simp only [List.length_set] at hjlen
      exact hA j hj0 hjlen (by omega)

/-- Correctness of the walk-down phase (`_siftup` with `startpos 0`):
if the array is a heap on every edge not touching the hole position
`p`, and the hole's parent bounds the hole's children, then the CPython
sift-up (walk the hole to a leaf, then bubble the new item up) yields a
heap. -/
theorem isHeap_siftupAux (fuel : Nat) :
    ∀ (l : List HEntry) (p : Nat) (x : HEntry), l.length - p ≤ fuel →
    p < l.length →
    (∀ j, 0 < j → j < l.length → j ≠ p → (j - 1) / 2 ≠ p →
      keyAt l ((j - 1) / 2) ≤ keyAt l j) →
    (∀ j, 0 < j → j < l.length → (j - 1) / 2 = p → 0 < p →
      keyAt l ((p - 1) / 2) ≤ keyAt l j) →
    IsHeap (siftupAux fuel l 0 p x) := by
  induction fuel with
  | zero =>
    intro l p x hn hp
    omega
  | succ fuel ih =>
    intro l p x hn hp hC1 hC2
    simp only [siftupAux]
    by_cases h : 2 * p + 1 < l.length
    · rw [if_pos h]
      have hc : childSel l p x < l.length := childSel_lt_length l p x h
      have hpc : p < childSel l p x := pos_lt_childSel l p x
      have hcpar : (childSel l p x - 1) / 2 = p := childSel_parent l p x
      have hkey : keyAt (l.set p (l.getD (childSel l p x) x)) p
          = keyAt l (childSel l p x) := by
        rw [keyAt_set_self _ _ _ hp, keyAt_getD l _ x hc]
      apply ih (l.set p (l.getD (childSel l p x) x)) (childSel l p x) x
        (by simp only [List.length_set]; omega) (by simpa using hc)
      · -- hC1 for the new hole position
        intro j hj0 hjlen hjc hjparc
        simp only [List.length_set] at hjlen
        by_cases hjp : j = p
        · -- edge from the parent of `p` into `p`, which now holds the
          -- selected child's entry
          have hp0 : 0 < p := by omega
          have e1 : keyAt (l.set p (l.getD (childSel l p x) x))
              ((j - 1) / 2) = keyAt l ((j - 1) / 2) := by
            rw [hjp]
            exact keyAt_set_ne _ _ _ _ (by omega)
          have e2 : keyAt (l.set p (l.getD (childSel l p x) x)) j
              = keyAt l (childSel l p x) := by
            rw [hjp]
            exact hkey
          rw [e1, e2, hjp]
          exact hC2 (childSel l p x) (by omega) hc hcpar hp0
        · by_cases hjparp : (j - 1) / 2 = p
          · -- edge from `p` (holding the selected child) into the other
            -- child of `p`
            have e1 : keyAt (l.set p (l.getD (childSel l p x) x))
                ((j - 1) / 2) = keyAt l (childSel l p x) := by
              rw [hjparp]
              exact hkey
            have e2 : keyAt (l.set p (l.getD (childSel l p x) x)) j
                = keyAt l j := keyAt_set_ne _ _ _ _ (by omega)
            rw [e1, e2]
            exact childSel_min l p x h j hj0 hjlen hjparp
          · -- an edge not touching `p` at all
            have e1 : keyAt (l.set p (l.getD (childSel l p x) x))
                ((j - 1) / 2) = keyAt l ((j - 1) / 2) :=
              keyAt_set_ne _ _ _ _ (by omega)
            have e2 : keyAt (l.set p (l.getD (childSel l p x) x)) j
                = keyAt l j := keyAt_set_ne _ _ _ _ (by omega)
            rw [e1, e2]
            exact hC1 j hj0 hjlen hjp hjparp
      · -- the bridge for the new hole position
        intro j hj0 hjlen hjparc _
        simp only [List.length_set] at hjlen
        have hjgt : childSel l p x < j := by omega
        have e1 : keyAt (l.set p (l.getD (childSel l p x) x))
            ((childSel l p x - 1) / 2) = keyAt l (childSel l p x) := by
          rw [hcpar]
          exact hkey
        have e2 : keyAt (l.set p (l.getD (childSel l p x) x)) j
            = keyAt l j := keyAt_set_ne _ _ _ _ (by omega)
        rw [e1, e2]
        have := hC1 j hj0 hjlen (by omega) (by omega)
        rwa [hjparc] at this
    · rw [if_neg h]
      apply isHeap_siftdownAux (p + 1) l p x (by omega) hp
      · intro j hj0 hjlen hjp
        have hjparp : (j - 1) / 2 ≠ p := by omega
        have e1 : keyAt (l.set p x) ((j - 1) / 2) = keyAt l ((j - 1) / 2) :=
          keyAt_set_ne _ _ _ _ (by omega)
        have e2 : keyAt (l.set p x) j = keyAt l j :=
          keyAt_set_ne _ _ _ _ (by omega)
        rw [e1, e2]
        exact hC1 j hj0 hjlen hjp hjparp
      · intro j hj0 hjlen hjpar _
        omega

/-- A concatenated element can be rewritten in place without change. -/
theorem set_concat_length (l : List HEntry) (x : HEntry) :
    (l ++ [x]).set l.length x = l ++ [x] := by
  have hg : (l ++ [x]).getD l.length x = x := by simp [List.getD]
  have h3 := set_getD_self (l ++ [x]) l.length x (by simp)
  rwa [hg] at h3

/-- `heappush` preserves the heap invariant. -/
theorem isHeap_heapPush (l : List HEntry) (x : HEntry) (h : IsHeap l) :
    IsHeap (heapPush l x) := by
  unfold heapPush
  apply isHeap_siftdownAux (l.length + 1) (l ++ [x]) l.length x (by omega)
    (by simp)
  · intro j hj0 hjlen hjne
    simp only [List.length_append, List.length_singleton] at hjlen
    have hjl : j < l.length := by omega
    rw [set_concat_length]
    rw [keyAt_append_left l [x] j hjl,
      keyAt_append_left l [x] ((j - 1) / 2) (by omega)]
    exact h j hj0 hjl
  · intro j hj0 hjlen hjpar _
    simp only [List.length_append, List.length_singleton] at hjlen
    omega

/-- `heappop` preserves the heap invariant. -/
theorem isHeap_heapPop (l : List HEntry) (h : IsHeap l) (x : HEntry)
    (l2 : List HEntry) (hp : heapPop l = some (x, l2)) : IsHeap l2 := by
  induction l using List.reverseRecOn with
  | nil => simp [heapPop] at hp
  | append_singleton init lastelt _ =>
      cases init with
      | nil =>
          simp only [List.nil_append] at hp
          rw [heapPop_singleton] at hp
          cases hp
          intro j hj0 hjlen
          simp at hjlen
      | cons ret rest =>
          rw [heapPop_cons_concat] at hp
          injection hp with hp
          injection hp with h1 h2
          subst h1
          subst h2
          apply isHeap_siftupAux ((ret :: rest).set 0 lastelt).length _ 0
            lastelt (by simp) (by simp)
          · intro j hj0 hjlen hjne hjparne
            simp only [List.length_set, List.length_cons] at hjlen
            have e1 : keyAt ((ret :: rest).set 0 lastelt) j
                = keyAt (ret :: rest) j := keyAt_set_ne _ _ _ _ (by omega)
            have e2 : keyAt ((ret :: rest).set 0 lastelt) ((j - 1) / 2)
                = keyAt (ret :: rest) ((j - 1) / 2) :=
              keyAt_set_ne _ _ _ _ (by omega)
            rw [e1, e2]
            have f1 : keyAt (ret :: rest) j
                = keyAt ((ret :: rest) ++ [lastelt]) j :=
              (keyAt_append_left _ [lastelt] j (by simpa using hjlen)).symm
            have f2 : keyAt (ret :: rest) ((j - 1) / 2)
                = keyAt ((ret :: rest) ++ [lastelt]) ((j - 1) / 2) :=
              (keyAt_append_left _ [lastelt] _
                (by simp only [List.length_cons]; omega)).symm
            rw [f1, f2]
            exact h j hj0 (by simp only [List.length_append,
              List.length_cons, List.length_singleton]; omega)
          · intro j hj0 hjlen hjpar hfalse
            omega

/-- In a heap the root key bounds every key. -/
theorem keyAt_zero_le (l : List HEntry) (h : IsHeap l) :
    ∀ j, j < l.length → keyAt l 0 ≤ keyAt l j := by
  intro j
  induction j using Nat.strong_induction_on with
  | _ j ihj =>
    intro hj
    by_cases hj0 : 0 < j
    · exact le_trans (ihj ((j - 1) / 2) (by omega) (by omega)) (h j hj0 hj)
    · have : j = 0 := by omega
      rw [this]

theorem keyAt_eq_getElem (l : List HEntry) (j : Nat) (h : j < l.length) :
    keyAt l j = (l[j]).1 := by
  unfold keyAt
  rw [List.getD_eq_getElem l _ h]

/-- `heappop` on a heap returns an entry of minimal key. -/
theorem heapPop_min (l : List HEntry) (h : IsHeap l) (x : HEntry)
    (l2 : List HEntry) (hp : heapPop l = some (x, l2)) :
    ∀ y, y ∈ l → x.1 ≤ y.1 := by
  intro y hy
  obtain ⟨j, hj, hjy⟩ := List.mem_iff_getElem.mp hy
  have hx : x.1 = keyAt l 0 := by
    cases l using List.reverseRecOn with
    | nil => simp [heapPop] at hp
    | append_singleton init lastelt _ =>
        cases init with
        | nil =>
            simp only [List.nil_append] at hp ⊢
            rw [heapPop_singleton] at hp
            cases hp
            rfl
        | cons ret rest =>
            rw [heapPop_cons_concat] at hp
            injection hp with hp
            injection hp with h1 h2
            subst h1
            rfl
  rw [hx, ← hjy, ← keyAt_eq_getElem l j hj]
  exact keyAt_zero_le l h j hj

def drainHeapAux : Nat → List HEntry → List HEntry
  | 0, _ => []
  | fuel + 1, l =>
    match heapPop l with
    | none => []
    | some (x, l2) => x :: drainHeapAux fuel l2

/-- Pop the heap until it is empty, returning the entries in pop
order.  This is the sequence of successive `get_nowait` results. -/
def drainHeap (l : List HEntry) : List HEntry := drainHeapAux l.length l

theorem drainHeapAux_perm (fuel : Nat) : ∀ (l : List HEntry),
    l.length ≤ fuel → (drainHeapAux fuel l).Perm l := by
  induction fuel with
  | zero =>
    intro l hl
    have hnil : l = [] := List.length_eq_zero.mp (Nat.le_zero.mp hl)
    subst hnil
    rfl
  | succ fuel ih =>
    intro l hl
    simp only [drainHeapAux]
    split
    next hp =>
        cases l with
        | nil => rfl
        | cons a t =>
            rcases hlast : (a :: t).getLast? with _ | y
            · rw [List.getLast?_eq_none_iff] at hlast
              simp at hlast
            · rw [heapPop, hlast] at hp
              rcases hdrop : (a :: t).dropLast with _ | ⟨r, rs⟩ <;>
                rw [hdrop] at hp <;> simp at hp
    next x l2 hp =>
        have hlen := heapPop_length l x l2 hp
        have h2 := ih l2 (by omega)
        exact (List.Perm.cons x h2).trans (heapPop_perm l x l2 hp).symm

theorem drainHeap_perm (l : List HEntry) : (drainHeap l).Perm l :=
  drainHeapAux_perm l.length l (Nat.le_refl _)

theorem mem_of_mem_drainHeap (l : List HEntry) (y : HEntry)
    (h : y ∈ drainHeap l) : y ∈ l :=
  (drainHeap_perm l).subset h

theorem drainHeapAux_pairwise (fuel : Nat) : ∀ (l : List HEntry),
    l.length ≤ fuel → IsHeap l →
    List.Pairwise (fun a b : HEntry => a.1 ≤ b.1) (drainHeapAux fuel l) := by
  induction fuel with
  | zero =>
    intro l hl _
    have hnil : l = [] := List.length_eq_zero.mp (Nat.le_zero.mp hl)
    subst hnil
    exact List.Pairwise.nil
  | succ fuel ih =>
    intro l hl hheap
    simp only [drainHeapAux]
    split
    next hp => exact List.Pairwise.nil
    next x l2 hp =>
        have hlen := heapPop_length l x l2 hp
        refine List.Pairwise.cons ?_ (ih l2 (by omega)
          (isHeap_heapPop l hheap x l2 hp))
        intro y hy
        exact heapPop_min l hheap x l2 hp y
          ((heapPop_perm l x l2 hp).symm.subset
            (List.mem_cons_of_mem x
              ((drainHeapAux_perm fuel l2 (by omega)).subset hy)))

/-- Draining a heap yields entries in nondecreasing key order. -/
theorem drainHeap_pairwise (l : List HEntry) (h : IsHeap l) :
    List.Pairwise (fun a b : HEntry => a.1 ≤ b.1) (drainHeap l) :=
  drainHeapAux_pairwise l.length l (Nat.le_refl _) h

/-- Building a heap by successive pushes preserves the invariant. -/
theorem isHeap_foldl_heapPush (es : List HEntry) :
    ∀ l, IsHeap l → IsHeap (List.foldl heapPush l es) := by
  induction es with
  | nil => intro l h; exact h
  | cons e es ih =>
      intro l h
      exact ih (heapPush l e) (isHeap_heapPush l e h)

theorem isHeap_nil : IsHeap [] := by
  intro j hj0 hjlen
  simp at hjlen

/-! ## Part 2: model of `TaskManager` / `AgentWorker`
(`src/agents/task_manager.py`).

Mutable `Task` objects shared between `self.tasks` and the
`PriorityQueue` are modelled by keeping the authoritative record in
`tasks` and storing `(priority value, id)` entries in the queue; since
`priority` is never mutated, the heap comparisons are unchanged, and a
status update through one reference is visible through the other, as
in the source.  `datetime.now()` is modelled by a monotone counter
ticked at each call; the generated string id by a fresh numeric id. -/

/-- `TaskPriority` with the Python enum values used by
`Task.__lt__`. -/
inductive TaskPriority where
  | critical
  | high
  | medium
  | low
  | background
deriving DecidableEq, Repr

def TaskPriority.value : TaskPriority → Nat
  | .critical => 1
  | .high => 2
  | .medium => 3
  | .low => 4
  | .background => 5

/-- `TaskStatus`. -/
inductive TaskStatus where
  | pending
  | running
  | completed
  | failed
  | cancelled
  | retrying
deriving DecidableEq, Repr

/-- Outcome of one invocation of a task's `function`: a returned value
or a raised exception message. -/
inductive Outcome where
  | ok (v : Nat)
  | raises (msg : String)
deriving DecidableEq, Repr

/-- Behaviour of all task actions: `env id attempt` is the outcome of
the `attempt`-th invocation (0-based) of the function of task `id`.
The attempt number equals `retry_count` at the moment of the call. -/
def Env := Nat → Nat → Outcome

/-- The `Task` dataclass. -/
structure MTask where
  id : Nat
  name : String
  priority : TaskPriority
  dependencies : List Nat
  max_retries : Nat
  timeout : Nat
  created_at : Nat
  scheduled_at : Option Nat
  started_at : Option Nat
  completed_at : Option Nat
  status : TaskStatus
  result : Option Nat
  error : Option String
  retry_count : Nat
  agent_id : Option String
deriving DecidableEq, Repr

/-- `TaskManager` state: `tasks` is `self.tasks` in insertion order,
`task_queue` the underlying heapq list, `completed_tasks` and
`failed_tasks` the two id lists. -/
structure TMState where
  tasks : List MTask
  task_queue : List HEntry
  completed_tasks : List Nat
  failed_tasks : List Nat
  clock : Nat
  nextId : Nat
deriving DecidableEq, Repr

/-- Lookup `self.tasks[task_id]`. -/
def findTask (s : TMState) (id : Nat) : Option MTask :=
  s.tasks.find? (fun t => t.id == id)

/-- Store an updated task object back (mutation of the shared `Task`
object, visible through every reference). -/
def writeTask (s : TMState) (t : MTask) : TMState :=
  { s with tasks := s.tasks.map (fun u => if u.id = t.id then t else u) }

/-- `TaskManager._can_execute_task`. -/
def can_execute_task (s : TMState) (t : MTask) : Bool :=
  t.dependencies.all (fun d => s.completed_tasks.contains d)

/-- The freshly constructed `Task` of `add_task`: id generated at
submission, `created_at = datetime.now()`, Pending, no outcome. -/
def newTask (s : TMState) (name : String) (priority : TaskPriority)
    (dependencies : List Nat) (max_retries timeout : Nat)
    (scheduled_at : Option Nat) : MTask :=
  { id := s.nextId
    name := name
    priority := priority
    dependencies := dependencies
    max_retries := max_retries
    timeout := timeout
    created_at := s.clock
    scheduled_at := scheduled_at
    started_at := none
    completed_at := none
    status := .pending
    result := none
    error := none
    retry_count := 0
    agent_id := none }

/-- `self.tasks[task_id] = task` plus the id/clock bookkeeping of
`add_task`. -/
def addRegister (s : TMState) (name : String) (priority : TaskPriority)
    (dependencies : List Nat) (max_retries timeout : Nat)
    (scheduled_at : Option Nat) : TMState :=
  { s with
    tasks := s.tasks ++
      [newTask s name priority dependencies max_retries timeout scheduled_at]
    nextId := s.nextId + 1
    clock := s.clock + 1 }

/-- `TaskManager.add_task`: register the task, then enqueue it
immediately iff `_can_execute_task` holds. -/
def add_task (s : TMState) (name : String) (priority : TaskPriority)
    (dependencies : List Nat) (max_retries timeout : Nat)
    (scheduled_at : Option Nat) : TMState × Nat :=
  if can_execute_task
      (addRegister s name priority dependencies max_retries timeout
        scheduled_at)
      (newTask s name priority dependencies max_retries timeout
        scheduled_at) then
    ({ addRegister s name priority dependencies max_retries timeout
        scheduled_at with
        task_queue := heapPush s.task_queue (priority.value, s.nextId) },
      s.nextId)
  else
    (addRegister s name priority dependencies max_retries timeout
      scheduled_at, s.nextId)

/-- `TaskManager.get_next_task` (`get_nowait` on a non-empty queue). -/
def get_next_task (s : TMState) : Option (HEntry × TMState) :=
  match heapPop s.task_queue with
  | none => none
  | some (e, q) => some (e, { s with task_queue := q })

/-- `TaskManager.retry_task`: re-check `retry_count < max_retries`, and
if it holds, set the task back to Pending and re-enqueue it.  Returns
the new state together with the (possibly updated) task object. -/
def retry_task (s : TMState) (t : MTask) : TMState × MTask :=
  if t.retry_count < t.max_retries then
    ({ writeTask s { t with status := .pending } with
        task_queue := heapPush s.task_queue (t.priority.value, t.id) },
      { t with status := .pending })
  else
    (s, t)

/-- The condition of `_check_dependent_tasks`:
`task.status == PENDING and completed_task_id in task.dependencies and
self._can_execute_task(task)`. -/
def dep_ready (s : TMState) (cid : Nat) (t : MTask) : Bool :=
  t.status == .pending && t.dependencies.contains cid
    && can_execute_task s t

/-- `TaskManager._check_dependent_tasks`: scan `self.tasks.values()`
in insertion order and enqueue every Pending task that depends on the
completed id and whose dependencies are now all satisfied. -/
def check_dependent_tasks (s : TMState) (cid : Nat) : TMState :=
  { s with task_queue :=
      s.tasks.foldl (fun q t =>
        if dep_ready s cid t then
          heapPush q (t.priority.value, t.id)
        else q) s.task_queue }

/-- `TaskManager.update_task_status`, called with the task object's
final field values for this attempt. -/
def update_task_status (s : TMState) (t : MTask) : TMState :=
  if t.status = .completed then
    check_dependent_tasks
      { s with completed_tasks := s.completed_tasks ++ [t.id] } t.id
  else if t.status = .failed ∧ t.max_retries ≤ t.retry_count then
    { s with failed_tasks := s.failed_tasks ++ [t.id] }
  else
    s

/-- `TaskManager.cancel_task`. -/
def cancel_task (s : TMState) (id : Nat) : Bool × TMState :=
  match findTask s id with
  | some t =>
      if t.status = .pending then
        (true, writeTask s { t with status := .cancelled })
      else
        (false, s)
  | none => (false, s)

/-- First half of `AgentWorker._execute_task` (up to and including
`task.status = TaskStatus.RUNNING`), applied to the task handed out by
`get_next_task`: the worker records itself as `agent_id`, stamps
`started_at = datetime.now()` and marks the task Running. -/
def claim_task (s : TMState) (aid : String) : Option TMState :=
  match get_next_task s with
  | none => none
  | some (e, s1) =>
      match findTask s1 e.2 with
      | none => none
      | some t =>
          some (writeTask { s1 with clock := s1.clock + 1 }
            { t with
                agent_id := some aid
                started_at := some s1.clock
                status := .running })

/-- Second half of `AgentWorker._execute_task`: invoke the task
function, record the outcome, apply the retry logic, and make the
final `update_task_status` call from the `finally` block.  `id` is the
task the worker holds; it is Running while the function executes. -/
def finish_task (env : Env) (s : TMState) (id : Nat) : Option TMState :=
  match findTask s id with
  | none => none
  | some t =>
      if t.status = .running then
        match env t.id t.retry_count with
        | .ok v =>
            let t2 : MTask := { t with
              result := some v
              completed_at := some s.clock
              status := .completed }
            some (update_task_status
              (writeTask { s with clock := s.clock + 1 } t2) t2)
        | .raises msg =>
            let t2 : MTask := { t with error := some msg, status := .failed }
            if t2.retry_count < t2.max_retries then
              let t3 : MTask := { t2 with
                retry_count := t2.retry_count + 1
                status := .retrying }
              let p := retry_task (writeTask s t3) t3
              some (update_task_status p.1 p.2)
            else
              some (update_task_status (writeTask s t2) t2)
      else
        none

/-- The initial `TaskManager()` state. -/
def initTM : TMState :=
  { tasks := []
    task_queue := []
    completed_tasks := []
    failed_tasks := []
    clock := 0
    nextId := 0 }

/-- One observable step of the system: a submission, a worker claiming
a task, a worker finishing the task it holds, or a cancellation
request. -/
inductive Step (env : Env) : TMState → TMState → Prop where
  | add (s : TMState) (name : String) (priority : TaskPriority)
      (dependencies : List Nat) (max_retries timeout : Nat)
      (scheduled_at : Option Nat) :
      Step env s
        (add_task s name priority dependencies max_retries timeout
          scheduled_at).1
  | claim (s s' : TMState) (aid : String)
      (h : claim_task s aid = some s') : Step env s s'
  | finish (s s' : TMState) (id : Nat)
      (h : finish_task env s id = some s') : Step env s s'
  | cancel (s : TMState) (id : Nat) : Step env s (cancel_task s id).2

/-- States reachable from a fresh `TaskManager()`. -/
inductive Reachable (env : Env) : TMState → Prop where
  | init : Reachable env initTM
  | step (s s' : TMState) : Reachable env s → Step env s s' →
      Reachable env s'

/-- Zero or more steps. -/
inductive Steps (env : Env) : TMState → TMState → Prop where
  | refl (s : TMState) : Steps env s s
  | tail (s1 s2 s3 : TMState) : Steps env s1 s2 → Step env s2 s3 →
      Steps env s1 s3

/-! ### Basic lemmas about the model's operations -/

/-- The ids present in the ready queue. -/
def queueIds (s : TMState) : List Nat := s.task_queue.map Prod.snd

theorem findTask_some (s : TMState) (id : Nat) (t : MTask)
    (h : findTask s id = some t) : t ∈ s.tasks ∧ t.id = id := by
  unfold findTask at h
  refine ⟨List.mem_of_find?_eq_some h, ?_⟩
  have := List.find?_some h
  simpa using this

theorem find?_id_of_mem :
    ∀ (ts : List MTask), (ts.map MTask.id).Nodup →
      ∀ (t : MTask) (id : Nat), t ∈ ts → t.id = id →
        ts.find? (fun u => u.id == id) = some t := by
  intro ts
  induction ts with
  | nil => intro _ t id ht; simp at ht
  | cons u ts ih =>
      intro hnd t id ht hid
      simp only [List.map_cons, List.nodup_cons] at hnd
      rcases List.mem_cons.mp ht with h | h
      · subst h
        rw [List.find?_cons_of_pos _ (by simpa using hid)]
      · have hne : u.id ≠ id := by
          intro he
          exact hnd.1 (by
            rw [← hid] at he
            rw [he]
            exact List.mem_map_of_mem MTask.id h)
        rw [List.find?_cons_of_neg _ (by simpa using hne)]
        exact ih hnd.2 t id h hid

theorem findTask_of_mem (s : TMState) (hnd : (s.tasks.map MTask.id).Nodup)
    (t : MTask) (id : Nat) (ht : t ∈ s.tasks) (hid : t.id = id) :
    findTask s id = some t :=
  find?_id_of_mem s.tasks hnd t id ht hid

/-- With distinct ids, two members with the same id coincide. -/
theorem mem_id_unique (s : TMState) (hnd : (s.tasks.map MTask.id).Nodup)
    (t1 t2 : MTask) (h1 : t1 ∈ s.tasks) (h2 : t2 ∈ s.tasks)
    (h : t1.id = t2.id) : t1 = t2 := by
  have e1 := findTask_of_mem s hnd t1 t2.id h1 h
  have e2 := findTask_of_mem s hnd t2 t2.id h2 rfl
  rw [e1] at e2
  exact Option.some.inj e2

theorem writeTask_map_id (s : TMState) (t : MTask) :
    (writeTask s t).tasks.map MTask.id = s.tasks.map MTask.id := by
  unfold writeTask
  simp only [List.map_map]
  apply List.map_congr_left
  intro u _
  by_cases h : u.id = t.id
  · simp [Function.comp, h]
  · simp [Function.comp, h]

theorem writeTask_queue (s : TMState) (t : MTask) :
    (writeTask s t).task_queue = s.task_queue := rfl

theorem writeTask_completed (s : TMState) (t : MTask) :
    (writeTask s t).completed_tasks = s.completed_tasks := rfl

theorem writeTask_failed (s : TMState) (t : MTask) :
    (writeTask s t).failed_tasks = s.failed_tasks := rfl

theorem mem_writeTask (s : TMState) (t u' : MTask) :
    u' ∈ (writeTask s t).tasks ↔
      ∃ u ∈ s.tasks, u' = if u.id = t.id then t else u := by
  unfold writeTask
  simp only [List.mem_map]
  constructor
  · rintro ⟨u, hu, he⟩
    exact ⟨u, hu, he.symm⟩
  · rintro ⟨u, hu, he⟩
    exact ⟨u, hu, he.symm⟩

theorem can_execute_task_iff (s : TMState) (t : MTask) :
    can_execute_task s t = true ↔
      ∀ d ∈ t.dependencies, d ∈ s.completed_tasks := by
  unfold can_execute_task
  simp [List.all_eq_true]

theorem dep_ready_iff (s : TMState) (cid : Nat) (t : MTask) :
    dep_ready s cid t = true ↔
      t.status = .pending ∧ cid ∈ t.dependencies ∧
        can_execute_task s t = true := by
  unfold dep_ready
  simp [and_assoc]

/-- Membership in the queue produced by the `_check_dependent_tasks`
scan. -/
theorem mem_foldl_enq (s : TMState) (cid : Nat) :
    ∀ (ts : List MTask) (q : List HEntry) (e : HEntry),
      e ∈ ts.foldl (fun q t =>
          if dep_ready s cid t then
            heapPush q (t.priority.value, t.id)
          else q) q ↔
        e ∈ q ∨ ∃ t, t ∈ ts ∧ dep_ready s cid t = true ∧
          e = (t.priority.value, t.id) := by
  intro ts
  induction ts with
  | nil => intro q e; simp
  | cons u ts ih =>
      intro q e
      simp only [List.foldl_cons]
      by_cases hu : dep_ready s cid u
      · rw [if_pos hu, ih]
        have hq : e ∈ heapPush q (u.priority.value, u.id) ↔
            e = (u.priority.value, u.id) ∨ e ∈ q := by
          rw [(heapPush_perm q (u.priority.value, u.id)).mem_iff]
          simp
        rw [hq]
        constructor
        · rintro ((he | he) | ⟨t, ht, hd, he⟩)
          · exact Or.inr ⟨u, List.mem_cons_self u ts, hu, he⟩
          · exact Or.inl he
          · exact Or.inr ⟨t, List.mem_cons_of_mem u ht, hd, he⟩
        · rintro (he | ⟨t, ht, hd, he⟩)
          · exact Or.inl (Or.inr he)
          · rcases List.mem_cons.mp ht with h | h
            · subst h
              exact Or.inl (Or.inl he)
            · exact Or.inr ⟨t, h, hd, he⟩
      · rw [if_neg hu, ih]
        constructor
        · rintro (he | ⟨t, ht, hd, he⟩)
          · exact Or.inl he
          · exact Or.inr ⟨t, List.mem_cons_of_mem u ht, hd, he⟩
        · rintro (he | ⟨t, ht, hd, he⟩)
          · exact Or.inl he
          · rcases List.mem_cons.mp ht with h | h
            · subst h
              exact absurd hd (by simpa using hu)
            · exact Or.inr ⟨t, h, hd, he⟩

/-- The `_check_dependent_tasks` scan keeps the queued ids distinct,
provided every task it may enqueue is not already queued. -/
theorem nodup_foldl_enq (s : TMState) (cid : Nat) :
    ∀ (ts : List MTask) (q : List HEntry),
      (q.map Prod.snd).Nodup → (ts.map MTask.id).Nodup →
      (∀ t ∈ ts, dep_ready s cid t = true → t.id ∉ q.map Prod.snd) →
      ((ts.foldl (fun q t =>
          if dep_ready s cid t then
            heapPush q (t.priority.value, t.id)
          else q) q).map Prod.snd).Nodup := by
  intro ts
  induction ts with
  | nil => intro q hq _ _; exact hq
  | cons u ts ih =>
      intro q hq hts hfresh
      simp only [List.map_cons, List.nodup_cons] at hts
      simp only [List.foldl_cons]
      by_cases hu : dep_ready s cid u
      · rw [if_pos hu]
        apply ih
        · have hperm : ((heapPush q (u.priority.value, u.id)).map
              Prod.snd).Perm (u.id :: q.map Prod.snd) := by
            have := (heapPush_perm q (u.priority.value, u.id)).map Prod.snd
            simpa using this
          rw [hperm.nodup_iff]
          exact List.nodup_cons.mpr
            ⟨hfresh u (List.mem_cons_self u ts) hu, hq⟩
        · exact hts.2
        · intro t ht hd hmem
          have hperm : ((heapPush q (u.priority.value, u.id)).map
              Prod.snd).Perm (u.id :: q.map Prod.snd) := by
            have := (heapPush_perm q (u.priority.value, u.id)).map Prod.snd
            simpa using this
          rcases List.mem_cons.mp (hperm.subset hmem) with h | h
          · exact hts.1 (h ▸ List.mem_map_of_mem MTask.id ht)
          · exact hfresh t (List.mem_cons_of_mem u ht) hd h
      · rw [if_neg hu]
        exact ih q hq hts.2
          (fun t ht hd => hfresh t (List.mem_cons_of_mem u ht) hd)

theorem mem_check_queue (sc : TMState) (cid : Nat) (e : HEntry) :
    e ∈ (check_dependent_tasks sc cid).task_queue ↔
      e ∈ sc.task_queue ∨ ∃ t, t ∈ sc.tasks ∧ dep_ready sc cid t = true ∧
        e = (t.priority.value, t.id) :=
  mem_foldl_enq sc cid sc.tasks sc.task_queue e

theorem mem_writeTask_cases (s : TMState) (t2 u' : MTask)
    (h : u' ∈ (writeTask s t2).tasks) :
    u' = t2 ∨ (u' ∈ s.tasks ∧ u'.id ≠ t2.id) := by
  rcases (mem_writeTask s t2 u').mp h with ⟨u, hu, he⟩
  by_cases hid : u.id = t2.id
  · rw [if_pos hid] at he
    exact Or.inl he
  · rw [if_neg hid] at he
    subst he
    exact Or.inr ⟨hu, hid⟩

theorem counterpart_writeTask (s : TMState) (t2 u : MTask)
    (h : u ∈ s.tasks) :
    ∃ u' ∈ (writeTask s t2).tasks, u'.id = u.id ∧ (u' = t2 ∨ u' = u) := by
  refine ⟨if u.id = t2.id then t2 else u,
    (mem_writeTask s t2 _).mpr ⟨u, h, rfl⟩, ?_, ?_⟩
  · by_cases hid : u.id = t2.id
    · rw [if_pos hid, hid]
    · rw [if_neg hid]
  · by_cases hid : u.id = t2.id
    · rw [if_pos hid]
      exact Or.inl rfl
    · rw [if_neg hid]
      exact Or.inr rfl

theorem self_mem_writeTask (s : TMState) (t2 u : MTask)
    (hu : u ∈ s.tasks) (hid : u.id = t2.id) :
    t2 ∈ (writeTask s t2).tasks := by
  have := (mem_writeTask s t2 (if u.id = t2.id then t2 else u)).mpr
    ⟨u, hu, rfl⟩
  rwa [if_pos hid] at this

/-! ### The reachability invariant -/

/-- The invariant maintained by every reachable `TaskManager` state. -/
structure Inv (s : TMState) : Prop where
  ids_nodup : (s.tasks.map MTask.id).Nodup
  ids_lt : ∀ t ∈ s.tasks, t.id < s.nextId
  queue_mem : ∀ e ∈ s.task_queue, ∃ t ∈ s.tasks, t.id = e.2
  queue_nodup : (s.task_queue.map Prod.snd).Nodup
  queue_deps : ∀ e ∈ s.task_queue, ∀ t ∈ s.tasks, t.id = e.2 →
      ∀ d ∈ t.dependencies, d ∈ s.completed_tasks
  queue_status : ∀ e ∈ s.task_queue, ∀ t ∈ s.tasks, t.id = e.2 →
      t.status = .pending ∨ t.status = .cancelled
  running_deps : ∀ t ∈ s.tasks, t.status = .running →
      ∀ d ∈ t.dependencies, d ∈ s.completed_tasks
  completed_mem : ∀ id ∈ s.completed_tasks, ∃ t ∈ s.tasks, t.id = id
  completed_status : ∀ id ∈ s.completed_tasks, ∀ t ∈ s.tasks, t.id = id →
      t.status = .completed
  failed_mem : ∀ id ∈ s.failed_tasks, ∃ t ∈ s.tasks, t.id = id
  failed_status : ∀ id ∈ s.failed_tasks, ∀ t ∈ s.tasks, t.id = id →
      t.status = .failed
  completedAt_status : ∀ t ∈ s.tasks, t.completed_at ≠ none →
      t.status = .completed
  clock_created : ∀ t ∈ s.tasks, t.created_at < s.clock
  clock_started : ∀ t ∈ s.tasks, ∀ a, t.started_at = some a → a < s.clock
  clock_completed : ∀ t ∈ s.tasks, ∀ a, t.completed_at = some a →
      a < s.clock

theorem inv_init : Inv initTM := by
  constructor <;> simp [initTM]

/-- `add_task` preserves the invariant. -/
theorem inv_add (s : TMState) (hI : Inv s) (name : String)
    (priority : TaskPriority) (dependencies : List Nat)
    (max_retries timeout : Nat) (scheduled_at : Option Nat) :
    Inv (add_task s name priority dependencies max_retries timeout
      scheduled_at).1 := by
  have hfresh : ∀ u ∈ s.tasks, u.id ≠ s.nextId :=
    fun u hu => Nat.ne_of_lt (hI.ids_lt u hu)
  have hqfresh : s.nextId ∉ s.task_queue.map Prod.snd := by
    intro hmem
    rcases List.mem_map.mp hmem with ⟨e, he, hid⟩
    rcases hI.queue_mem e he with ⟨u, hu, huid⟩
    exact hfresh u hu (huid.trans hid)
  -- invariant fields shared by both branches
  have hreg : Inv (addRegister s name priority dependencies max_retries
      timeout scheduled_at) := by
    constructor
    · simp only [addRegister, List.map_append, List.map_cons,
        List.map_nil]
      rw [List.nodup_append]
      refine ⟨hI.ids_nodup, by simp [newTask], ?_⟩
      intro a ha hb
      simp only [List.mem_singleton] at hb
      rcases List.mem_map.mp ha with ⟨u, hu, hid⟩
      exact hfresh u hu (hid.trans (hb.trans (by simp [newTask])))
    · intro t ht
      simp only [addRegister, List.mem_append, List.mem_singleton] at ht
      rcases ht with ht | ht
      · exact Nat.lt_succ_of_lt (hI.ids_lt t ht)
      · subst ht
        simp [addRegister, newTask]
    · intro e he
      rcases hI.queue_mem e he with ⟨t, ht, hid⟩
      exact ⟨t, by simp [addRegister, List.mem_append, ht], hid⟩
    · exact hI.queue_nodup
    · intro e he t ht hid d hd
      simp only [addRegister, List.mem_append, List.mem_singleton] at ht
      rcases ht with ht | ht
      · exact hI.queue_deps e he t ht hid d hd
      · exfalso
        subst ht
        simp only [newTask] at hid
        rcases List.mem_map.mp (List.mem_map_of_mem Prod.snd he)
          with _
        exact hqfresh (hid ▸ List.mem_map_of_mem Prod.snd he)
    · intro e he t ht hid
      simp only [addRegister, List.mem_append, List.mem_singleton] at ht
      rcases ht with ht | ht
      · exact hI.queue_status e he t ht hid
      · subst ht
        exact Or.inl (by simp [newTask])
    · intro t ht hrun d hd
      simp only [addRegister, List.mem_append, List.mem_singleton] at ht
      rcases ht with ht | ht
      · exact hI.running_deps t ht hrun d hd
      · subst ht
        simp [newTask] at hrun
    · intro id hid
      rcases hI.completed_mem id hid with ⟨t, ht, hktid⟩
      exact ⟨t, by simp [addRegister, List.mem_append, ht], hktid⟩
    · intro id hid t ht htid
      simp only [addRegister, List.mem_append, List.mem_singleton] at ht
      rcases ht with ht | ht
      · exact hI.completed_status id hid t ht htid
      · exfalso
        subst ht
        rcases hI.completed_mem id hid with ⟨u, hu, huid⟩
        exact hfresh u hu (by simp only [newTask] at htid; omega)
    · intro id hid
      rcases hI.failed_mem id hid with ⟨t, ht, htid⟩
      exact ⟨t, by simp [addRegister, List.mem_append, ht], htid⟩
    · intro id hid t ht htid
      simp only [addRegister, List.mem_append, List.mem_singleton] at ht
      rcases ht with ht | ht
      · exact hI.failed_status id hid t ht htid
      · exfalso
        subst ht
        rcases hI.failed_mem id hid with ⟨u, hu, huid⟩
        exact hfresh u hu (by simp only [newTask] at htid; omega)
    · intro t ht hca
      simp only [addRegister, List.mem_append, List.mem_singleton] at ht
      rcases ht with ht | ht
      · exact hI.completedAt_status t ht hca
      · subst ht
        simp [newTask] at hca
    · intro t ht
      simp only [addRegister, List.mem_append, List.mem_singleton] at ht
      rcases ht with ht | ht
      · exact Nat.lt_succ_of_lt (hI.clock_created t ht)
      · subst ht
        simp [addRegister, newTask]
    · intro t ht a ha
      simp only [addRegister, List.mem_append, List.mem_singleton] at ht
      rcases ht with ht | ht
      · exact Nat.lt_succ_of_lt (hI.clock_started t ht a ha)
      · subst ht
        simp [newTask] at ha
    · intro t ht a ha
      simp only [addRegister, List.mem_append, List.mem_singleton] at ht
      rcases ht with ht | ht
      · exact Nat.lt_succ_of_lt (hI.clock_completed t ht a ha)
      · subst ht
        simp [newTask] at ha
  unfold add_task
  by_cases hce : can_execute_task
      (addRegister s name priority dependencies max_retries timeout
        scheduled_at)
      (newTask s name priority dependencies max_retries timeout
        scheduled_at) = true
  · rw [if_pos hce]
    have hperm : ((heapPush s.task_queue (priority.value, s.nextId)).map
        Prod.snd).Perm (s.nextId :: s.task_queue.map Prod.snd) := by
      have := (heapPush_perm s.task_queue (priority.value, s.nextId)).map
        Prod.snd
      simpa using this
    have hqmem : ∀ e ∈ heapPush s.task_queue (priority.value, s.nextId),
        e = (priority.value, s.nextId) ∨ e ∈ s.task_queue := by
      intro e he
      have := (heapPush_perm s.task_queue (priority.value, s.nextId)).subset
        he
      simpa using this
    constructor
    · exact hreg.ids_nodup
    · exact hreg.ids_lt
    · intro e he
      rcases hqmem e he with he2 | he2
      · refine ⟨newTask s name priority dependencies max_retries timeout
          scheduled_at, ?_, by simp [newTask, he2]⟩
        simp [addRegister, List.mem_append]
      · exact hreg.queue_mem e he2
    · rw [hperm.nodup_iff]
      exact List.nodup_cons.mpr ⟨hqfresh, hI.queue_nodup⟩
    · intro e he t ht hid d hd
      rcases hqmem e he with he2 | he2
      · -- the new entry: `_can_execute_task` was checked at add time
        have htn : t = newTask s name priority dependencies max_retries
            timeout scheduled_at := by
          simp only [addRegister, List.mem_append,
            List.mem_singleton] at ht
          rcases ht with ht | ht
          · exfalso
            apply hfresh t ht
            rw [hid, he2]
          · exact ht
        rw [can_execute_task_iff] at hce
        apply hce
        rw [← htn]
        exact hd
      · exact hreg.queue_deps e he2 t ht hid d hd
    · intro e he t ht hid
      rcases hqmem e he with he2 | he2
      · have htn : t = newTask s name priority dependencies max_retries
            timeout scheduled_at := by
          simp only [addRegister, List.mem_append,
            List.mem_singleton] at ht
          rcases ht with ht | ht
          · exfalso
            apply hfresh t ht
            rw [hid, he2]
          · exact ht
        subst htn
        exact Or.inl (by simp [newTask])
      · exact hreg.queue_status e he2 t ht hid
    · exact hreg.running_deps
    · exact hreg.completed_mem
    · exact hreg.completed_status
    · exact hreg.failed_mem
    · exact hreg.failed_status
    · exact hreg.completedAt_status
    · exact hreg.clock_created
    · exact hreg.clock_started
    · exact hreg.clock_completed
  · rw [if_neg hce]
    exact hreg

/-- `cancel_task` preserves the invariant. -/
theorem inv_cancel (s : TMState) (hI : Inv s) (id : Nat) :
    Inv (cancel_task s id).2 := by
  rcases hfind : findTask s id with _ | t
  · have hval : cancel_task s id = (false, s) := by
      unfold cancel_task
      rw [hfind]
    rw [hval]
    exact hI
  · by_cases hst : t.status = TaskStatus.pending
    · have hval : cancel_task s id
          = (true, writeTask s { t with status := TaskStatus.cancelled }) := by
        unfold cancel_task
        rw [hfind]
        simp [hst]
      rw [hval]
      obtain ⟨htmem, htid⟩ := findTask_some s id t hfind
      have hnotc : t.id ∉ s.completed_tasks := by
        intro hc
        have := hI.completed_status t.id hc t htmem rfl
        rw [this] at hst
        cases hst
      have hnotf : t.id ∉ s.failed_tasks := by
        intro hc
        have := hI.failed_status t.id hc t htmem rfl
        rw [this] at hst
        cases hst
      constructor
      · rw [writeTask_map_id]
        exact hI.ids_nodup
      · intro u' hu'
        rcases mem_writeTask_cases s _ u' hu' with h | ⟨h, _⟩
        · subst h
          exact hI.ids_lt t htmem
        · exact hI.ids_lt u' h
      · intro e he
        rcases hI.queue_mem e he with ⟨u, hu, huid⟩
        rcases counterpart_writeTask s _ u hu with ⟨u', hu', huid2, _⟩
        exact ⟨u', hu', huid2.trans huid⟩
      · exact hI.queue_nodup
      · intro e he u' hu' huid d hd
        rcases mem_writeTask_cases s _ u' hu' with h | ⟨h, _⟩
        · subst h
          exact hI.queue_deps e he t htmem huid d hd
        · exact hI.queue_deps e he u' h huid d hd
      · intro e he u' hu' huid
        rcases mem_writeTask_cases s _ u' hu' with h | ⟨h, _⟩
        · subst h
          exact Or.inr rfl
        · exact hI.queue_status e he u' h huid
      · intro u' hu' hrun d hd
        rcases mem_writeTask_cases s _ u' hu' with h | ⟨h, _⟩
        · subst h
          cases hrun
        · exact hI.running_deps u' h hrun d hd
      · intro id2 hid2
        rcases hI.completed_mem id2 hid2 with ⟨u, hu, huid⟩
        rcases counterpart_writeTask s _ u hu with ⟨u', hu', huid2, _⟩
        exact ⟨u', hu', huid2.trans huid⟩
      · intro id2 hid2 u' hu' huid
        rcases mem_writeTask_cases s _ u' hu' with h | ⟨h, _⟩
        · exfalso
          apply hnotc
          rw [← huid, h] at hid2
          exact hid2
        · exact hI.completed_status id2 hid2 u' h huid
      · intro id2 hid2
        rcases hI.failed_mem id2 hid2 with ⟨u, hu, huid⟩
        rcases counterpart_writeTask s _ u hu with ⟨u', hu', huid2, _⟩
        exact ⟨u', hu', huid2.trans huid⟩
      · intro id2 hid2 u' hu' huid
        rcases mem_writeTask_cases s _ u' hu' with h | ⟨h, _⟩
        · exfalso
          apply hnotf
          rw [← huid, h] at hid2
          exact hid2
        · exact hI.failed_status id2 hid2 u' h huid
      · intro u' hu' hca
        rcases mem_writeTask_cases s _ u' hu' with h | ⟨h, _⟩
        · exfalso
          subst h
          have := hI.completedAt_status t htmem hca
          rw [this] at hst
          cases hst
        · exact hI.completedAt_status u' h hca
      · intro u' hu'
        rcases mem_writeTask_cases s _ u' hu' with h | ⟨h, _⟩
        · subst h
          exact hI.clock_created t htmem
        · exact hI.clock_created u' h
      · intro u' hu' a ha
        rcases mem_writeTask_cases s _ u' hu' with h | ⟨h, _⟩
        · subst h
          exact hI.clock_started t htmem a ha
        · exact hI.clock_started u' h a ha
      · intro u' hu' a ha
        rcases mem_writeTask_cases s _ u' hu' with h | ⟨h, _⟩
        · subst h
          exact hI.clock_completed t htmem a ha
        · exact hI.clock_completed u' h a ha
    · have hval : cancel_task s id = (false, s) := by
        unfold cancel_task
        rw [hfind]
        simp [hst]
      rw [hval]
      exact hI

/-- `claim_task` preserves the invariant. -/
theorem inv_claim (s s' : TMState) (hI : Inv s) (aid : String)
    (h : claim_task s aid = some s') : Inv s' := by
  unfold claim_task get_next_task at h
  rcases hpop : heapPop s.task_queue with _ | ⟨e, q2⟩
  · rw [hpop] at h
    cases h
  · rw [hpop] at h
    simp only at h
    rcases hfind : findTask { s with task_queue := q2 } e.2 with _ | t
    · rw [hfind] at h
      cases h
    · rw [hfind] at h
      simp only [Option.some.injEq] at h
      subst h
      have hperm := heapPop_perm s.task_queue e q2 hpop
      have hemem : e ∈ s.task_queue :=
        hperm.mem_iff.mpr (List.mem_cons_self e q2)
      have hq2sub : ∀ x ∈ q2, x ∈ s.task_queue :=
        fun x hx => hperm.mem_iff.mpr (List.mem_cons_of_mem e hx)
      have hidperm : (s.task_queue.map Prod.snd).Perm
          (e.2 :: q2.map Prod.snd) := by
        have := hperm.map Prod.snd
        simpa using this
      have hq2nodup : (q2.map Prod.snd).Nodup ∧
          e.2 ∉ q2.map Prod.snd := by
        have := hidperm.nodup_iff.mp hI.queue_nodup
        exact ⟨(List.nodup_cons.mp this).2, (List.nodup_cons.mp this).1⟩
      obtain ⟨htmem, htid⟩ := findTask_some _ e.2 t hfind
      simp only at htmem
      have hstat := hI.queue_status e hemem t htmem htid
      have hnotc : t.id ∉ s.completed_tasks := by
        intro hc
        have := hI.completed_status t.id hc t htmem rfl
        rcases hstat with hs | hs <;> rw [hs] at this <;> cases this
      have hnotf : t.id ∉ s.failed_tasks := by
        intro hc
        have := hI.failed_status t.id hc t htmem rfl
        rcases hstat with hs | hs <;> rw [hs] at this <;> cases this
      constructor
      · rw [writeTask_map_id]
        exact hI.ids_nodup
      · intro u' hu'
        rcases mem_writeTask_cases _ _ u' hu' with hcase | ⟨hcase, _⟩
        · subst hcase
          exact hI.ids_lt t htmem
        · exact hI.ids_lt u' hcase
      · intro e2 he2
        rcases hI.queue_mem e2 (hq2sub e2 he2) with ⟨u, hu, huid⟩
        rcases counterpart_writeTask _ _ u hu with ⟨u', hu', huid2, _⟩
        exact ⟨u', hu', huid2.trans huid⟩
      · exact hq2nodup.1
      · intro e2 he2 u' hu' huid d hd
        rcases mem_writeTask_cases _ _ u' hu' with hcase | ⟨hcase, _⟩
        · exfalso
          subst hcase
          simp only at huid
          apply hq2nodup.2
          rw [← htid, huid]
          exact List.mem_map_of_mem Prod.snd he2
        · exact hI.queue_deps e2 (hq2sub e2 he2) u' hcase huid d hd
      · intro e2 he2 u' hu' huid
        rcases mem_writeTask_cases _ _ u' hu' with hcase | ⟨hcase, _⟩
        · exfalso
          subst hcase
          simp only at huid
          apply hq2nodup.2
          rw [← htid, huid]
          exact List.mem_map_of_mem Prod.snd he2
        · exact hI.queue_status e2 (hq2sub e2 he2) u' hcase huid
      · intro u' hu' hrun d hd
        rcases mem_writeTask_cases _ _ u' hu' with hcase | ⟨hcase, _⟩
        · subst hcase
          exact hI.queue_deps e hemem t htmem htid d hd
        · exact hI.running_deps u' hcase hrun d hd
      · intro id2 hid2
        rcases hI.completed_mem id2 hid2 with ⟨u, hu, huid⟩
        rcases counterpart_writeTask _ _ u hu with ⟨u', hu', huid2, _⟩
        exact ⟨u', hu', huid2.trans huid⟩
      · intro id2 hid2 u' hu' huid
        rcases mem_writeTask_cases _ _ u' hu' with hcase | ⟨hcase, _⟩
        · exfalso
          apply hnotc
          rw [← huid, hcase] at hid2
          exact hid2
        · exact hI.completed_status id2 hid2 u' hcase huid
      · intro id2 hid2
        rcases hI.failed_mem id2 hid2 with ⟨u, hu, huid⟩
        rcases counterpart_writeTask _ _ u hu with ⟨u', hu', huid2, _⟩
        exact ⟨u', hu', huid2.trans huid⟩
      · intro id2 hid2 u' hu' huid
        rcases mem_writeTask_cases _ _ u' hu' with hcase | ⟨hcase, _⟩
        · exfalso
          apply hnotf
          rw [← huid, hcase] at hid2
          exact hid2
        · exact hI.failed_status id2 hid2 u' hcase huid
      · intro u' hu' hca
        rcases mem_writeTask_cases _ _ u' hu' with hcase | ⟨hcase, _⟩
        · exfalso
          subst hcase
          simp only [ne_eq] at hca
          have := hI.completedAt_status t htmem hca
          rcases hstat with hs | hs <;> rw [hs] at this <;> cases this
        · exact hI.completedAt_status u' hcase hca
      · intro u' hu'
        rcases mem_writeTask_cases _ _ u' hu' with hcase | ⟨hcase, _⟩
        · subst hcase
          exact Nat.lt_succ_of_lt (hI.clock_created t htmem)
        · exact Nat.lt_succ_of_lt (hI.clock_created u' hcase)
      · intro u' hu' a ha
        rcases mem_writeTask_cases _ _ u' hu' with hcase | ⟨hcase, _⟩
        · subst hcase
          simp only [Option.some.injEq] at ha
          show a < s.clock + 1
          omega
        · exact Nat.lt_succ_of_lt (hI.clock_started u' hcase a ha)
      · intro u' hu' a ha
        rcases mem_writeTask_cases _ _ u' hu' with hcase | ⟨hcase, _⟩
        · subst hcase
          exact Nat.lt_succ_of_lt (hI.clock_completed t htmem a ha)
        · exact Nat.lt_succ_of_lt (hI.clock_completed u' hcase a ha)

theorem writeTask_writeTask (s : TMState) (a b : MTask)
    (hid : a.id = b.id) : writeTask (writeTask s a) b = writeTask s b := by
  unfold writeTask
  simp only [List.map_map]
  congr 1
  apply List.map_congr_left
  intro u _
  by_cases h : u.id = a.id
  · simp only [Function.comp_apply, if_pos h]
    rw [if_pos hid, if_pos (h.trans hid)]
  · simp only [Function.comp_apply, if_neg h]

theorem update_task_status_pending (s : TMState) (t : MTask)
    (h : t.status = .pending) : update_task_status s t = s := by
  unfold update_task_status
  rw [h]
  simp

theorem update_task_status_retrying (s : TMState) (t : MTask)
    (h : t.status = .retrying) : update_task_status s t = s := by
  unfold update_task_status
  rw [h]
  simp

theorem update_task_status_completed (s : TMState) (t : MTask)
    (h : t.status = .completed) :
    update_task_status s t = check_dependent_tasks
      { s with completed_tasks := s.completed_tasks ++ [t.id] } t.id := by
  unfold update_task_status
  rw [h]
  simp

theorem update_task_status_failed (s : TMState) (t : MTask)
    (h : t.status = .failed) (h2 : t.max_retries ≤ t.retry_count) :
    update_task_status s t
      = { s with failed_tasks := s.failed_tasks ++ [t.id] } := by
  unfold update_task_status
  rw [h]
  simp [h2]

/-- `_check_dependent_tasks` preserves the invariant, provided every
task it may enqueue is not already in the queue. -/
theorem inv_check (sc : TMState) (cid : Nat) (hIc : Inv sc)
    (hfresh : ∀ td ∈ sc.tasks, dep_ready sc cid td = true →
      td.id ∉ sc.task_queue.map Prod.snd) :
    Inv (check_dependent_tasks sc cid) := by
  have hqmem : ∀ e, e ∈ (check_dependent_tasks sc cid).task_queue ↔
      e ∈ sc.task_queue ∨ ∃ t, t ∈ sc.tasks ∧ dep_ready sc cid t = true ∧
        e = (t.priority.value, t.id) :=
    fun e => mem_foldl_enq sc cid sc.tasks sc.task_queue e
  constructor
  · exact hIc.ids_nodup
  · exact hIc.ids_lt
  · intro e he
    rcases (hqmem e).mp he with h | ⟨td, htd, _, he2⟩
    · exact hIc.queue_mem e h
    · exact ⟨td, htd, by rw [he2]⟩
  · exact nodup_foldl_enq sc cid sc.tasks sc.task_queue
      hIc.queue_nodup hIc.ids_nodup hfresh
  · intro e he u hu huid d hd
    rcases (hqmem e).mp he with h | ⟨td, htd, hrd, he2⟩
    · exact hIc.queue_deps e h u hu huid d hd
    · have hu_td : u = td := by
        apply mem_id_unique sc hIc.ids_nodup u td hu htd
        rw [huid, he2]
      subst hu_td
      rcases (dep_ready_iff sc cid u).mp hrd with ⟨_, _, hce⟩
      exact (can_execute_task_iff sc u).mp hce d hd
  · intro e he u hu huid
    rcases (hqmem e).mp he with h | ⟨td, htd, hrd, he2⟩
    · exact hIc.queue_status e h u hu huid
    · have hu_td : u = td := by
        apply mem_id_unique sc hIc.ids_nodup u td hu htd
        rw [huid, he2]
      subst hu_td
      exact Or.inl ((dep_ready_iff sc cid u).mp hrd).1
  · exact hIc.running_deps
  · exact hIc.completed_mem
  · exact hIc.completed_status
  · exact hIc.failed_mem
  · exact hIc.failed_status
  · exact hIc.completedAt_status
  · exact hIc.clock_created
  · exact hIc.clock_started
  · exact hIc.clock_completed

/-- Rewriting a Running task to a new record with the same id,
dependencies and timestamps and a status that is neither Pending,
Running nor Completed preserves the invariant (the Retrying and
attempt-Failed rewrites of `_execute_task`). -/
theorem inv_write_running (s : TMState) (hI : Inv s) (t nt : MTask)
    (htmem : t ∈ s.tasks) (hst : t.status = .running)
    (hid : nt.id = t.id)
    (hnr : nt.status ≠ .running) (hnp : nt.status ≠ .pending)
    (hnc : nt.status ≠ .completed)
    (hca : nt.completed_at = t.completed_at)
    (hcr : nt.created_at = t.created_at)
    (hsa : nt.started_at = t.started_at) :
    Inv (writeTask s nt) := by
  have hnotc : t.id ∉ s.completed_tasks := by
    intro hc
    have := hI.completed_status t.id hc t htmem rfl
    rw [this] at hst
    cases hst
  have hnotf : t.id ∉ s.failed_tasks := by
    intro hc
    have := hI.failed_status t.id hc t htmem rfl
    rw [this] at hst
    cases hst
  have hnotq : t.id ∉ s.task_queue.map Prod.snd := by
    intro hq
    rcases List.mem_map.mp hq with ⟨e, he, heid⟩
    rcases hI.queue_status e he t htmem heid.symm with h2 | h2 <;>
      rw [h2] at hst <;> cases hst
  constructor
  · rw [writeTask_map_id]
    exact hI.ids_nodup
  · intro u' hu'
    rcases mem_writeTask_cases s nt u' hu' with hcase | ⟨hcase, _⟩
    · subst hcase
      rw [hid]
      exact hI.ids_lt t htmem
    · exact hI.ids_lt u' hcase
  · intro e he
    rcases hI.queue_mem e he with ⟨u, hu, huid⟩
    rcases counterpart_writeTask s nt u hu with ⟨u', hu', huid2, _⟩
    exact ⟨u', hu', huid2.trans huid⟩
  · exact hI.queue_nodup
  · intro e he u' hu' huid d hd
    rcases mem_writeTask_cases s nt u' hu' with hcase | ⟨hcase, _⟩
    · exfalso
      subst hcase
      apply hnotq
      rw [← hid, huid]
      exact List.mem_map_of_mem Prod.snd he
    · exact hI.queue_deps e he u' hcase huid d hd
  · intro e he u' hu' huid
    rcases mem_writeTask_cases s nt u' hu' with hcase | ⟨hcase, _⟩
    · exfalso
      subst hcase
      apply hnotq
      rw [← hid, huid]
      exact List.mem_map_of_mem Prod.snd he
    · exact hI.queue_status e he u' hcase huid
  · intro u' hu' hrun d hd
    rcases mem_writeTask_cases s nt u' hu' with hcase | ⟨hcase, _⟩
    · exfalso
      subst hcase
      exact hnr hrun
    · exact hI.running_deps u' hcase hrun d hd
  · intro id2 hid2
    rcases hI.completed_mem id2 hid2 with ⟨u, hu, huid⟩
    rcases counterpart_writeTask s nt u hu with ⟨u', hu', huid2, _⟩
    exact ⟨u', hu', huid2.trans huid⟩
  · intro id2 hid2 u' hu' huid
    rcases mem_writeTask_cases s nt u' hu' with hcase | ⟨hcase, _⟩
    · exfalso
      apply hnotc
      rw [← huid, hcase, hid] at hid2
      exact hid2
    · exact hI.completed_status id2 hid2 u' hcase huid
  · intro id2 hid2
    rcases hI.failed_mem id2 hid2 with ⟨u, hu, huid⟩
    rcases counterpart_writeTask s nt u hu with ⟨u', hu', huid2, _⟩
    exact ⟨u', hu', huid2.trans huid⟩
  · intro id2 hid2 u' hu' huid
    rcases mem_writeTask_cases s nt u' hu' with hcase | ⟨hcase, _⟩
    · exfalso
      apply hnotf
      rw [← huid, hcase, hid] at hid2
      exact hid2
    · exact hI.failed_status id2 hid2 u' hcase huid
  · intro u' hu' hcap
    rcases mem_writeTask_cases s nt u' hu' with hcase | ⟨hcase, _⟩
    · exfalso
      subst hcase
      rw [hca] at hcap
      have := hI.completedAt_status t htmem hcap
      rw [this] at hst
      cases hst
    · exact hI.completedAt_status u' hcase hcap
  · intro u' hu'
    rcases mem_writeTask_cases s nt u' hu' with hcase | ⟨hcase, _⟩
    · subst hcase
      rw [hcr]
      exact hI.clock_created t htmem
    · exact hI.clock_created u' hcase
  · intro u' hu' a ha
    rcases mem_writeTask_cases s nt u' hu' with hcase | ⟨hcase, _⟩
    · subst hcase
      rw [hsa] at ha
      exact hI.clock_started t htmem a ha
    · exact hI.clock_started u' hcase a ha
  · intro u' hu' a ha
    rcases mem_writeTask_cases s nt u' hu' with hcase | ⟨hcase, _⟩
    · subst hcase
      rw [hca] at ha
      exact hI.clock_completed t htmem a ha
    · exact hI.clock_completed u' hcase a ha

/-- Appending a terminally failed task's id to `failed_tasks`
preserves the invariant. -/
theorem inv_failed_append (sb : TMState) (hIb : Inv sb) (nt : MTask)
    (hmem : nt ∈ sb.tasks) (hstat : nt.status = .failed) :
    Inv { sb with failed_tasks := sb.failed_tasks ++ [nt.id] } := by
  constructor
  · exact hIb.ids_nodup
  · exact hIb.ids_lt
  · exact hIb.queue_mem
  · exact hIb.queue_nodup
  · exact hIb.queue_deps
  · exact hIb.queue_status
  · exact hIb.running_deps
  · exact hIb.completed_mem
  · exact hIb.completed_status
  · intro id2 hid2
    rcases List.mem_append.mp hid2 with h2 | h2
    · exact hIb.failed_mem id2 h2
    · refine ⟨nt, hmem, ?_⟩
      simp only [List.mem_singleton] at h2
      omega
  · intro id2 hid2 u hu huid
    rcases List.mem_append.mp hid2 with h2 | h2
    · exact hIb.failed_status id2 h2 u hu huid
    · have : u = nt := by
        apply mem_id_unique sb hIb.ids_nodup u nt hu hmem
        rw [huid]
        simpa using h2
      rw [this]
      exact hstat
  · exact hIb.completedAt_status
  · exact hIb.clock_created
  · exact hIb.clock_started
  · exact hIb.clock_completed

/-- The Completed transition of `_execute_task` followed by
`update_task_status` preserves the invariant: the task record is
rewritten to Completed, its id is appended to `completed_tasks`, and
`_check_dependent_tasks` re-evaluates the dependents. -/
theorem inv_finish_success (s : TMState) (hI : Inv s) (t t2 : MTask)
    (htmem : t ∈ s.tasks) (hst : t.status = .running)
    (hid : t2.id = t.id) (hdeps : t2.dependencies = t.dependencies)
    (hstat2 : t2.status = .completed)
    (hca : t2.completed_at = some s.clock)
    (hcr : t2.created_at = t.created_at)
    (hsa : t2.started_at = t.started_at) :
    Inv (check_dependent_tasks
      { tasks := (writeTask { s with clock := s.clock + 1 } t2).tasks
        task_queue := s.task_queue
        completed_tasks := s.completed_tasks ++ [t2.id]
        failed_tasks := s.failed_tasks
        clock := s.clock + 1
        nextId := s.nextId } t2.id) := by
  have hnotc : t.id ∉ s.completed_tasks := by
    intro hc
    have := hI.completed_status t.id hc t htmem rfl
    rw [this] at hst
    cases hst
  have hnotf : t.id ∉ s.failed_tasks := by
    intro hc
    have := hI.failed_status t.id hc t htmem rfl
    rw [this] at hst
    cases hst
  have hnotq : t.id ∉ s.task_queue.map Prod.snd := by
    intro hq
    rcases List.mem_map.mp hq with ⟨e, he, heid⟩
    rcases hI.queue_status e he t htmem heid.symm with h2 | h2 <;>
      rw [h2] at hst <;> cases hst
  have hmemcases : ∀ u',
      u' ∈ (writeTask { s with clock := s.clock + 1 } t2).tasks →
      u' = t2 ∨ (u' ∈ s.tasks ∧ u'.id ≠ t2.id) :=
    fun u' hu' => mem_writeTask_cases _ t2 u' hu'
  have hcounter : ∀ u, u ∈ s.tasks →
      ∃ u' ∈ (writeTask { s with clock := s.clock + 1 } t2).tasks,
        u'.id = u.id :=
    fun u hu => by
      rcases counterpart_writeTask { s with clock := s.clock + 1 } t2 u hu
        with ⟨u', hu', huid, _⟩
      exact ⟨u', hu', huid⟩
  have ht2mem : t2 ∈ (writeTask { s with clock := s.clock + 1 } t2).tasks :=
    self_mem_writeTask _ t2 t htmem hid.symm
  apply inv_check
  · constructor
    · show (((writeTask { s with clock := s.clock + 1 } t2).tasks).map
        MTask.id).Nodup
      rw [writeTask_map_id]
      exact hI.ids_nodup
    · intro u' hu'
      rcases hmemcases u' hu' with hcase | ⟨hcase, _⟩
      · subst hcase
        rw [hid]
        exact hI.ids_lt t htmem
      · exact hI.ids_lt u' hcase
    · intro e he
      rcases hI.queue_mem e he with ⟨u, hu, huid⟩
      rcases hcounter u hu with ⟨u', hu', huid2⟩
      exact ⟨u', hu', huid2.trans huid⟩
    · exact hI.queue_nodup
    · intro e he u' hu' huid d hd
      rcases hmemcases u' hu' with hcase | ⟨hcase, _⟩
      · exfalso
        subst hcase
        apply hnotq
        rw [← hid, huid]
        exact List.mem_map_of_mem Prod.snd he
      · exact List.mem_append_left _ (hI.queue_deps e he u' hcase huid d hd)
    · intro e he u' hu' huid
      rcases hmemcases u' hu' with hcase | ⟨hcase, _⟩
      · exfalso
        subst hcase
        apply hnotq
        rw [← hid, huid]
        exact List.mem_map_of_mem Prod.snd he
      · exact hI.queue_status e he u' hcase huid
    · intro u' hu' hrun d hd
      rcases hmemcases u' hu' with hcase | ⟨hcase, _⟩
      · exfalso
        subst hcase
        rw [hstat2] at hrun
        cases hrun
      · exact List.mem_append_left _ (hI.running_deps u' hcase hrun d hd)
    · intro id2 hid2
      rcases List.mem_append.mp hid2 with h2 | h2
      · rcases hI.completed_mem id2 h2 with ⟨u, hu, huid⟩
        rcases hcounter u hu with ⟨u', hu', huid2⟩
        exact ⟨u', hu', huid2.trans huid⟩
      · refine ⟨t2, ht2mem, ?_⟩
        simp only [List.mem_singleton] at h2
        omega
    · intro id2 hid2 u' hu' huid
      rcases List.mem_append.mp hid2 with h2 | h2
      · rcases hmemcases u' hu' with hcase | ⟨hcase, _⟩
        · exfalso
          apply hnotc
          rw [← huid, hcase, hid] at h2
          exact h2
        · exact hI.completed_status id2 h2 u' hcase huid
      · rcases hmemcases u' hu' with hcase | ⟨hcase, hne⟩
        · rw [hcase]
          exact hstat2
        · exfalso
          apply hne
          rw [huid]
          simpa using h2
    · intro id2 hid2
      rcases hI.failed_mem id2 hid2 with ⟨u, hu, huid⟩
      rcases hcounter u hu with ⟨u', hu', huid2⟩
      exact ⟨u', hu', huid2.trans huid⟩
    · intro id2 hid2 u' hu' huid
      rcases hmemcases u' hu' with hcase | ⟨hcase, _⟩
      · exfalso
        apply hnotf
        rw [← huid, hcase, hid] at hid2
        exact hid2
      · exact hI.failed_status id2 hid2 u' hcase huid
    · intro u' hu' hcap
      rcases hmemcases u' hu' with hcase | ⟨hcase, _⟩
      · rw [hcase]
        exact hstat2
      · exact hI.completedAt_status u' hcase hcap
    · intro u' hu'
      rcases hmemcases u' hu' with hcase | ⟨hcase, _⟩
      · subst hcase
        rw [hcr]
        exact Nat.lt_succ_of_lt (hI.clock_created t htmem)
      · exact Nat.lt_succ_of_lt (hI.clock_created u' hcase)
    · intro u' hu' a ha
      rcases hmemcases u' hu' with hcase | ⟨hcase, _⟩
      · subst hcase
        rw [hsa] at ha
        exact Nat.lt_succ_of_lt (hI.clock_started t htmem a ha)
      · exact Nat.lt_succ_of_lt (hI.clock_started u' hcase a ha)
    · intro u' hu' a ha
      rcases hmemcases u' hu' with hcase | ⟨hcase, _⟩
      · subst hcase
        rw [hca] at ha
        simp only [Option.some.injEq] at ha
        show a < s.clock + 1
        omega
      · exact Nat.lt_succ_of_lt (hI.clock_completed u' hcase a ha)
  · intro td htd hrd
    rcases hmemcases td htd with hcase | ⟨hcase, hne⟩
    · exfalso
      subst hcase
      have := ((dep_ready_iff _ _ _).mp hrd).1
      rw [hstat2] at this
      cases this
    · intro hqmem
      rcases List.mem_map.mp hqmem with ⟨e, he, heid⟩
      have hdeps := hI.queue_deps e he td hcase heid.symm
      have hcid := ((dep_ready_iff _ _ _).mp hrd).2.1
      apply hnotc
      rw [← hid]
      exact hdeps t2.id hcid

/-- The Retrying-and-requeue transition of `_execute_task` (a failure
with `retry_count + 1` still below `max_retries`, so `retry_task` sets
the task back to Pending and pushes it) preserves the invariant. -/
theorem inv_finish_requeue (s : TMState) (hI : Inv s) (t t3p : MTask)
    (htmem : t ∈ s.tasks) (hst : t.status = .running)
    (hid : t3p.id = t.id) (hdeps : t3p.dependencies = t.dependencies)
    (hstat : t3p.status = .pending)
    (hca : t3p.completed_at = t.completed_at)
    (hcr : t3p.created_at = t.created_at)
    (hsa : t3p.started_at = t.started_at) :
    Inv { writeTask s t3p with
      task_queue := heapPush s.task_queue (t3p.priority.value, t3p.id) } := by
  have hnotc : t.id ∉ s.completed_tasks := by
    intro hc
    have := hI.completed_status t.id hc t htmem rfl
    rw [this] at hst
    cases hst
  have hnotf : t.id ∉ s.failed_tasks := by
    intro hc
    have := hI.failed_status t.id hc t htmem rfl
    rw [this] at hst
    cases hst
  have hnotq : t.id ∉ s.task_queue.map Prod.snd := by
    intro hq
    rcases List.mem_map.mp hq with ⟨e, he, heid⟩
    rcases hI.queue_status e he t htmem heid.symm with h2 | h2 <;>
      rw [h2] at hst <;> cases hst
  have hqmem : ∀ e ∈ heapPush s.task_queue (t3p.priority.value, t3p.id),
      e = (t3p.priority.value, t3p.id) ∨ e ∈ s.task_queue := by
    intro e he
    have := (heapPush_perm s.task_queue (t3p.priority.value, t3p.id)).subset
      he
    simpa using this
  have hperm : ((heapPush s.task_queue (t3p.priority.value, t3p.id)).map
      Prod.snd).Perm (t3p.id :: s.task_queue.map Prod.snd) := by
    have := (heapPush_perm s.task_queue (t3p.priority.value, t3p.id)).map
      Prod.snd
    simpa using this
  have ht3mem : t3p ∈ (writeTask s t3p).tasks :=
    self_mem_writeTask s t3p t htmem hid.symm
  constructor
  · show (((writeTask s t3p).tasks).map MTask.id).Nodup
    rw [writeTask_map_id]
    exact hI.ids_nodup
  · intro u' hu'
    rcases mem_writeTask_cases s t3p u' hu' with hcase | ⟨hcase, _⟩
    · subst hcase
      rw [hid]
      exact hI.ids_lt t htmem
    · exact hI.ids_lt u' hcase
  · intro e he
    rcases hqmem e he with he2 | he2
    · exact ⟨t3p, ht3mem, by rw [he2]⟩
    · rcases hI.queue_mem e he2 with ⟨u, hu, huid⟩
      rcases counterpart_writeTask s t3p u hu with ⟨u', hu', huid2, _⟩
      exact ⟨u', hu', huid2.trans huid⟩
  · rw [hperm.nodup_iff]
    exact List.nodup_cons.mpr ⟨hid ▸ hnotq, hI.queue_nodup⟩
  · intro e he u' hu' huid d hd
    rcases hqmem e he with he2 | he2
    · -- the requeued task: its dependencies were satisfied when it
      -- first ran (`running_deps`), and `completed_tasks` only grows
      have hu3 : u' = t3p := by
        rcases mem_writeTask_cases s t3p u' hu' with hcase | ⟨hcase, hne⟩
        · exact hcase
        · exfalso
          apply hne
          rw [huid, he2]
      subst hu3
      rw [hdeps] at hd
      exact hI.running_deps t htmem hst d hd
    · rcases mem_writeTask_cases s t3p u' hu' with hcase | ⟨hcase, _⟩
      · exfalso
        subst hcase
        apply hnotq
        rw [← hid, huid]
        exact List.mem_map_of_mem Prod.snd he2
      · exact hI.queue_deps e he2 u' hcase huid d hd
  · intro e he u' hu' huid
    rcases hqmem e he with he2 | he2
    · have hu3 : u' = t3p := by
        rcases mem_writeTask_cases s t3p u' hu' with hcase | ⟨hcase, hne⟩
        · exact hcase
        · exfalso
          apply hne
          rw [huid, he2]
      subst hu3
      exact Or.inl hstat
    · rcases mem_writeTask_cases s t3p u' hu' with hcase | ⟨hcase, _⟩
      · exfalso
        subst hcase
        apply hnotq
        rw [← hid, huid]
        exact List.mem_map_of_mem Prod.snd he2
      · exact hI.queue_status e he2 u' hcase huid
  · intro u' hu' hrun d hd
    rcases mem_writeTask_cases s t3p u' hu' with hcase | ⟨hcase, _⟩
    · exfalso
      subst hcase
      rw [hstat] at hrun
      cases hrun
    · exact hI.running_deps u' hcase hrun d hd
  · intro id2 hid2
    rcases hI.completed_mem id2 hid2 with ⟨u, hu, huid⟩
    rcases counterpart_writeTask s t3p u hu with ⟨u', hu', huid2, _⟩
    exact ⟨u', hu', huid2.trans huid⟩
  · intro id2 hid2 u' hu' huid
    rcases mem_writeTask_cases s t3p u' hu' with hcase | ⟨hcase, _⟩
    · exfalso
      apply hnotc
      rw [← huid, hcase, hid] at hid2
      exact hid2
    · exact hI.completed_status id2 hid2 u' hcase huid
  · intro id2 hid2
    rcases hI.failed_mem id2 hid2 with ⟨u, hu, huid⟩
    rcases counterpart_writeTask s t3p u hu with ⟨u', hu', huid2, _⟩
    exact ⟨u', hu', huid2.trans huid⟩
  · intro id2 hid2 u' hu' huid
    rcases mem_writeTask_cases s t3p u' hu' with hcase | ⟨hcase, _⟩
    · exfalso
      apply hnotf
      rw [← huid, hcase, hid] at hid2
      exact hid2
    · exact hI.failed_status id2 hid2 u' hcase huid
  · intro u' hu' hcap
    rcases mem_writeTask_cases s t3p u' hu' with hcase | ⟨hcase, _⟩
    · exfalso
      subst hcase
      rw [hca] at hcap
      have := hI.completedAt_status t htmem hcap
      rw [this] at hst
      cases hst
    · exact hI.completedAt_status u' hcase hcap
  · intro u' hu'
    rcases mem_writeTask_cases s t3p u' hu' with hcase | ⟨hcase, _⟩
    · subst hcase
      rw [hcr]
      exact hI.clock_created t htmem
    · exact hI.clock_created u' hcase
  · intro u' hu' a ha
    rcases mem_writeTask_cases s t3p u' hu' with hcase | ⟨hcase, _⟩
    · subst hcase
      rw [hsa] at ha
      exact hI.clock_started t htmem a ha
    · exact hI.clock_started u' hcase a ha
  · intro u' hu' a ha
    rcases mem_writeTask_cases s t3p u' hu' with hcase | ⟨hcase, _⟩
    · subst hcase
      rw [hca] at ha
      exact hI.clock_completed t htmem a ha
    · exact hI.clock_completed u' hcase a ha

/-- `finish_task` preserves the invariant. -/
theorem inv_finish (env : Env) (s s' : TMState) (id : Nat) (hI : Inv s)
    (h : finish_task env s id = some s') : Inv s' := by
  unfold finish_task at h
  split at h
  next => cases h
  next t hfind =>
    split at h
    next hst =>
      obtain ⟨htmem, htid⟩ := findTask_some s id t hfind
      split at h
      next v henv =>
        simp only [Option.some.injEq] at h
        subst h
        rw [update_task_status_completed _ _ rfl]
        exact inv_finish_success s hI t _ htmem hst rfl rfl rfl rfl rfl rfl
      next msg henv =>
        dsimp only at h
        split at h
        next hrc =>
          unfold retry_task at h
          split at h
          next hrc2 =>
            simp only [Option.some.injEq] at h
            subst h
            rw [update_task_status_pending _ _ rfl]
            rw [writeTask_writeTask s
              { t with
                  status := TaskStatus.retrying
                  error := some msg
                  retry_count := t.retry_count + 1 }
              { t with
                  status := TaskStatus.pending
                  error := some msg
                  retry_count := t.retry_count + 1 } rfl]
            exact inv_finish_requeue s hI t _ htmem hst rfl rfl rfl rfl
              rfl rfl
          next hrc2 =>
            simp only [Option.some.injEq] at h
            subst h
            rw [update_task_status_retrying _ _ rfl]
            exact inv_write_running s hI t _ htmem hst rfl
              (by intro hc; cases hc) (by intro hc; cases hc)
              (by intro hc; cases hc) rfl rfl rfl
        next hrc =>
          simp only [Option.some.injEq] at h
          subst h
          rw [update_task_status_failed _ _ rfl (by simpa using hrc)]
          apply inv_failed_append
          · exact inv_write_running s hI t _ htmem hst rfl
              (by intro hc; cases hc) (by intro hc; cases hc)
              (by intro hc; cases hc) rfl rfl rfl
          · exact self_mem_writeTask s _ t htmem rfl
          · rfl
    next hst => cases h

/-- Every step preserves the invariant. -/
theorem inv_step (env : Env) (s s' : TMState) (hI : Inv s)
    (hstep : Step env s s') : Inv s' := by
  cases hstep with
  | add name priority dependencies max_retries timeout scheduled_at =>
      exact inv_add s hI name priority dependencies max_retries timeout
        scheduled_at
  | claim a b c => exact inv_claim _ _ hI _ c
  | finish a b c => exact inv_finish env _ _ _ hI c
  | cancel a => exact inv_cancel s hI a

/-- Every reachable state satisfies the invariant. -/
theorem reachable_inv (env : Env) (s : TMState) (h : Reachable env s) :
    Inv s := by
  induction h with
  | init => exact inv_init
  | step s s' _ hstep ih => exact inv_step env s s' ih hstep

theorem find?_append_some (p : MTask → Bool) (l1 l2 : List MTask)
    (x : MTask) (h : l1.find? p = some x) :
    (l1 ++ l2).find? p = some x := by
  induction l1 with
  | nil => simp [List.find?] at h
  | cons u l1 ih =>
      by_cases hp : p u
      · rw [List.find?_cons_of_pos _ hp] at h
        rw [List.cons_append, List.find?_cons_of_pos _ hp]
        exact h
      · rw [List.find?_cons_of_neg _ hp] at h
        rw [List.cons_append, List.find?_cons_of_neg _ hp]
        exact ih h

/-- Writing a task with a different id does not change a lookup. -/
theorem findTask_writeTask_ne (s : TMState) (nt : MTask) (id : Nat)
    (h : nt.id ≠ id) : findTask (writeTask s nt) id = findTask s id := by
  unfold findTask writeTask
  show ((s.tasks.map fun u => if u.id = nt.id then nt else u).find?
    (fun u => u.id == id)) = s.tasks.find? (fun u => u.id == id)
  induction s.tasks with
  | nil => rfl
  | cons u ts ih =>
      simp only [List.map_cons]
      by_cases hu : u.id = nt.id
      · rw [if_pos hu]
        have h1 : (nt.id == id) = false := by simpa using h
        have h2 : (u.id == id) = false := by
          rw [hu]
          exact h1
        rw [List.find?_cons_of_neg _ (by simpa using h1),
          List.find?_cons_of_neg _ (by simpa using h2)]
        exact ih
      · rw [if_neg hu]
        by_cases hq : u.id = id
        · rw [List.find?_cons_of_pos _ (by simpa using hq),
            List.find?_cons_of_pos _ (by simpa using hq)]
        · rw [List.find?_cons_of_neg _ (by simpa using hq),
            List.find?_cons_of_neg _ (by simpa using hq)]
          exact ih

/-- A task that is Cancelled or stuck Retrying and not in the ready
queue stays that way across any step: no operation rewrites it and no
operation re-enqueues it. -/
theorem stuck_step (env : Env) (s s' : TMState) (id : Nat) (t : MTask)
    (hI : Inv s) (hstep : Step env s s')
    (hfind : findTask s id = some t)
    (hstat : t.status = .cancelled ∨ t.status = .retrying)
    (hq : id ∉ s.task_queue.map Prod.snd) :
    findTask s' id = some t ∧ id ∉ s'.task_queue.map Prod.snd := by
  obtain ⟨htmem, htid⟩ := findTask_some s id t hfind
  have hnotrun : t.status ≠ .running := by
    rcases hstat with h | h <;> rw [h] <;> intro hc <;> cases hc
  have hnotpend : t.status ≠ .pending := by
    rcases hstat with h | h <;> rw [h] <;> intro hc <;> cases hc
  cases hstep with
  | add name priority dependencies max_retries timeout scheduled_at =>
      have hidlt : id < s.nextId := htid ▸ hI.ids_lt t htmem
      have hfind2 : findTask (addRegister s name priority dependencies
          max_retries timeout scheduled_at) id = some t := by
        unfold findTask at hfind ⊢
        exact find?_append_some _ s.tasks _ t hfind
      unfold add_task
      by_cases hce : can_execute_task
          (addRegister s name priority dependencies max_retries timeout
            scheduled_at)
          (newTask s name priority dependencies max_retries timeout
            scheduled_at) = true
      · rw [if_pos hce]
        refine ⟨hfind2, ?_⟩
        intro hmem
        have hperm : ((heapPush s.task_queue (priority.value,
            s.nextId)).map Prod.snd).Perm
            (s.nextId :: s.task_queue.map Prod.snd) := by
          have := (heapPush_perm s.task_queue (priority.value,
            s.nextId)).map Prod.snd
          simpa using this
        rcases List.mem_cons.mp (hperm.subset hmem) with h2 | h2
        · omega
        · exact hq h2
      · rw [if_neg hce]
        exact ⟨hfind2, hq⟩
  | claim a aid h =>
      unfold claim_task get_next_task at h
      rcases hpop : heapPop s.task_queue with _ | ⟨e, q2⟩
      · rw [hpop] at h
        cases h
      · rw [hpop] at h
        simp only at h
        rcases hfind2 : findTask { s with task_queue := q2 } e.2
            with _ | u
        · rw [hfind2] at h
          cases h
        · rw [hfind2] at h
          simp only [Option.some.injEq] at h
          subst h
          have hperm := heapPop_perm s.task_queue e q2 hpop
          have hene : e.2 ≠ id := by
            intro he
            apply hq
            rw [← he]
            exact List.mem_map_of_mem Prod.snd
              (hperm.mem_iff.mpr (List.mem_cons_self e q2))
          obtain ⟨humem, huid⟩ := findTask_some _ e.2 u hfind2
          constructor
          · rw [findTask_writeTask_ne _ _ id (by simpa [huid] using hene)]
            exact hfind
          · intro hmem
            apply hq
            have hsub : (q2.map Prod.snd) ⊆ s.task_queue.map Prod.snd := by
              intro x hx
              rcases List.mem_map.mp hx with ⟨e2, he2, hx2⟩
              exact hx2 ▸ List.mem_map_of_mem Prod.snd
                (hperm.mem_iff.mpr (List.mem_cons_of_mem e he2))
            exact hsub hmem
  | finish a tid h =>
      unfold finish_task at h
      split at h
      next => cases h
      next u hfindu =>
        split at h
        next hstu =>
          obtain ⟨humem, huid⟩ := findTask_some s tid u hfindu
          have htne : u.id ≠ id := by
            intro he
            have : u = t := by
              apply mem_id_unique s hI.ids_nodup u t humem htmem
              rw [he, htid]
            rw [this] at hstu
            exact hnotrun hstu
          split at h
          next v henv =>
            simp only [Option.some.injEq] at h
            subst h
            rw [update_task_status_completed _ _ rfl]
            constructor
            · show findTask (writeTask { s with clock := s.clock + 1 }
                  { u with
                      result := some v
                      completed_at := some s.clock
                      status := TaskStatus.completed }) id = some t
              exact (findTask_writeTask_ne _ _ id (by exact htne)).trans
                hfind
            · intro hmem
              rcases List.mem_map.mp hmem with ⟨e, he, heid⟩
              rcases (mem_check_queue _ _ e).mp he with he2 |
                  ⟨td, htd, hrd, he2⟩
              · exact hq (heid ▸ List.mem_map_of_mem Prod.snd he2)
              · have hpend := ((dep_ready_iff _ _ _).mp hrd).1
                rcases mem_writeTask_cases _ _ td htd with hcase |
                    ⟨hcase, _⟩
                · subst hcase
                  cases hpend
                · have : td = t := by
                    apply mem_id_unique s hI.ids_nodup td t hcase htmem
                    rw [show td.id = e.2 from by rw [he2], heid, htid]
                  rw [this] at hpend
                  exact hnotpend hpend
          next msg henv =>
            dsimp only at h
            split at h
            next hrc =>
              unfold retry_task at h
              split at h
              next hrc2 =>
                simp only [Option.some.injEq] at h
                subst h
                rw [update_task_status_pending _ _ rfl]
                constructor
                · show findTask (writeTask (writeTask s
                      { u with
                          error := some msg
                          retry_count := u.retry_count + 1
                          status := TaskStatus.retrying })
                      { u with
                          error := some msg
                          retry_count := u.retry_count + 1
                          status := TaskStatus.pending }) id = some t
                  exact (findTask_writeTask_ne _ _ id
                    (by exact htne)).trans
                    ((findTask_writeTask_ne _ _ id (by exact htne)).trans
                      hfind)
                · intro hmem
                  have hperm : ((heapPush s.task_queue (u.priority.value,
                      u.id)).map Prod.snd).Perm
                      (u.id :: s.task_queue.map Prod.snd) := by
                    have := (heapPush_perm s.task_queue (u.priority.value,
                      u.id)).map Prod.snd
                    simpa using this
                  rcases List.mem_cons.mp (hperm.subset hmem) with h2 | h2
                  · exact htne h2.symm
                  · exact hq h2
              next hrc2 =>
                simp only [Option.some.injEq] at h
                subst h
                rw [update_task_status_retrying _ _ rfl]
                constructor
                · show findTask (writeTask s
                      { u with
                          error := some msg
                          retry_count := u.retry_count + 1
                          status := TaskStatus.retrying }) id = some t
                  exact (findTask_writeTask_ne _ _ id
                    (by exact htne)).trans hfind
                · exact hq
            next hrc =>
              simp only [Option.some.injEq] at h
              subst h
              rw [update_task_status_failed _ _ rfl (by simpa using hrc)]
              constructor
              · show findTask (writeTask s
                    { u with
                        error := some msg
                        status := TaskStatus.failed }) id = some t
                exact (findTask_writeTask_ne _ _ id
                  (by exact htne)).trans hfind
              · exact hq
        next hstu => cases h
  | cancel cid =>
      by_cases hcid : cid = id
      · subst hcid
        have hval : cancel_task s cid = (false, s) := by
          unfold cancel_task
          rw [hfind]
          simp [hnotpend]
        rw [hval]
        exact ⟨hfind, hq⟩
      · rcases hfindc : findTask s cid with _ | u
        · have hval : cancel_task s cid = (false, s) := by
            unfold cancel_task
            rw [hfindc]
          rw [hval]
          exact ⟨hfind, hq⟩
        · obtain ⟨humem, huid⟩ := findTask_some s cid u hfindc
          by_cases hstu : u.status = TaskStatus.pending
          · have hval : cancel_task s cid = (true, writeTask s
                { u with status := TaskStatus.cancelled }) := by
              unfold cancel_task
              rw [hfindc]
              simp [hstu]
            rw [hval]
            constructor
            · exact (findTask_writeTask_ne _ _ id
                (by simpa [huid] using hcid)).trans hfind
            · exact hq
          · have hval : cancel_task s cid = (false, s) := by
              unfold cancel_task
              rw [hfindc]
              simp [hstu]
            rw [hval]
            exact ⟨hfind, hq⟩

/-- The invariant holds after any run of steps from an invariant
state. -/
theorem steps_inv (env : Env) (s s' : TMState) (hI : Inv s)
    (hsteps : Steps env s s') : Inv s' := by
  induction hsteps with
  | refl => exact hI
  | tail b c hab hbc ih => exact inv_step env b c ih hbc

/-- `stuck_step` propagated along any run. -/
theorem stuck_steps (env : Env) (s s' : TMState) (id : Nat) (t : MTask)
    (hI : Inv s) (hsteps : Steps env s s')
    (hfind : findTask s id = some t)
    (hstat : t.status = .cancelled ∨ t.status = .retrying)
    (hq : id ∉ s.task_queue.map Prod.snd) :
    findTask s' id = some t ∧ id ∉ s'.task_queue.map Prod.snd := by
  induction hsteps with
  | refl => exact ⟨hfind, hq⟩
  | tail s2 s3 hsteps hstep ih =>
      exact stuck_step env s2 s3 id t (steps_inv env s s2 hI hsteps)
        hstep ih.1 hstat ih.2

theorem findTask_writeTask_self (s : TMState) (nt u : MTask)
    (hnd : (s.tasks.map MTask.id).Nodup) (hu : u ∈ s.tasks)
    (hid : u.id = nt.id) : findTask (writeTask s nt) nt.id = some nt := by
  apply findTask_of_mem
  · rw [writeTask_map_id]
    exact hnd
  · exact self_mem_writeTask s nt u hu hid
  · rfl

theorem foldl_heapPush_perm :
    ∀ (es l : List HEntry), (List.foldl heapPush l es).Perm (l ++ es) := by
  intro es
  induction es with
  | nil => intro l; simp
  | cons e es ih =>
      intro l
      have h1 : (List.foldl heapPush (heapPush l e) es).Perm
          ((heapPush l e) ++ es) := ih (heapPush l e)
      have h2 : ((heapPush l e) ++ es).Perm ((e :: l) ++ es) :=
        (heapPush_perm l e).append_right es
      have h3 : ((e :: l) ++ es).Perm (l ++ e :: es) := by
        simpa using List.perm_middle.symm
      simpa using (h1.trans h2).trans h3

/-! ## Part 3: the specification claims -/

/-- Environments used by the concrete executions below. -/
def envRaise : Env := fun _ _ => .raises "boom"

def envOk : Env := fun _ _ => .ok 0

/-- Raise on the first attempt, return 7 on any retry. -/
def envRetryOk : Env := fun _ n => if n = 0 then .raises "boom" else .ok 7

/-! Concrete executions used to settle the claims. -/

/-- One task, `max_retries = 1`, submitted to a fresh manager. -/
def c2s1 : TMState := (add_task initTM "t" .medium [] 1 300 none).1

def c2s2 : TMState := (claim_task c2s1 "agent_1").getD initTM

def c2s3 : TMState := (finish_task envRaise c2s2 0).getD initTM

/-- One task, `max_retries = 2`, action fails once then succeeds. -/
def c4s1 : TMState := (add_task initTM "t" .medium [] 2 300 none).1

def c4s2 : TMState := (claim_task c4s1 "agent_1").getD initTM

def c4s3 : TMState := (finish_task envRetryOk c4s2 0).getD initTM

def c4s4 : TMState := (claim_task c4s3 "agent_2").getD initTM

def c4s5 : TMState := (finish_task envRetryOk c4s4 0).getD initTM

/-- One dependency-free task, then a cancellation. -/
def c5s1 : TMState := (add_task initTM "t" .medium [] 3 300 none).1

def c5s2 : TMState := (cancel_task c5s1 0).2

def c5s3 : TMState := (claim_task c5s2 "agent_1").getD initTM

/-- Four equal-priority tasks submitted in id order 0, 1, 2, 3. -/
def c3s : TMState :=
  (add_task (add_task (add_task (add_task initTM "a" .medium [] 3 300
    none).1 "b" .medium [] 3 300 none).1 "c" .medium [] 3 300 none).1
    "d" .medium [] 3 300 none).1

/-- One task with `max_retries = 0` and an always-raising action. -/
def c6s1 : TMState := (add_task initTM "t" .medium [] 0 300 none).1

def c6s2 : TMState := (claim_task c6s1 "agent_1").getD initTM

def c6s3 : TMState := (finish_task envRaise c6s2 0).getD initTM

theorem reach_c2s3 : Reachable envRaise c2s3 :=
  Reachable.step _ _ (Reachable.step _ _ (Reachable.step _ _
    Reachable.init (Step.add initTM "t" .medium [] 1 300 none))
    (Step.claim c2s1 c2s2 "agent_1" rfl))
    (Step.finish c2s2 c2s3 0 rfl)

/-- Claim C2 (code bug): with `max_retries = 1` and an action that
always raises, the code invokes the action exactly once and leaves the
task in Retrying with `retry_count = 1`: the last allowed retry
increments `retry_count` to `max_retries`, so `retry_task`'s second
`retry_count < max_retries` check refuses to re-enqueue it, the queue
stays empty, the task is never added to the failed-task list, and its
status stays Retrying in every later state — never the claimed
`max_retries + 1` invocations ending in terminal Failed. -/
theorem C2_retry_off_by_one_stuck :
    claim_task c2s1 "agent_1" = some c2s2 ∧
    finish_task envRaise c2s2 0 = some c2s3 ∧
    (findTask c2s3 0).map MTask.status = some .retrying ∧
    (findTask c2s3 0).map MTask.retry_count = some 1 ∧
    c2s3.task_queue = [] ∧
    c2s3.failed_tasks = [] ∧
    (∀ s2, Steps envRaise c2s3 s2 →
      (findTask s2 0).map MTask.status = some .retrying ∧
      0 ∉ s2.task_queue.map Prod.snd) := by
  refine ⟨rfl, rfl, rfl, rfl, rfl, rfl, ?_⟩
  intro s2 hsteps
  have hI := reachable_inv envRaise c2s3 reach_c2s3
  have hstuck := stuck_steps envRaise c2s3 s2 0 _ hI hsteps rfl
    (Or.inr rfl) (by decide)
  refine ⟨?_, hstuck.2⟩
  rw [hstuck.1]
  rfl

/-- Claim C7 (code bug): a failing attempt with
`retry_count = 0 < 1 = max_retries` increments `retry_count` and sets
Retrying, but the task is left in Retrying and is never re-enqueued
(the queue stays empty) — not back to Pending and into the queue as
claimed, because `retry_task` re-checks `retry_count < max_retries`
after the increment. -/
theorem C7_last_retry_not_requeued :
    (findTask c2s2 0).map MTask.retry_count = some 0 ∧
    (findTask c2s2 0).map MTask.max_retries = some 1 ∧
    (findTask c2s2 0).map MTask.status = some .running ∧
    finish_task envRaise c2s2 0 = some c2s3 ∧
    (findTask c2s3 0).map MTask.retry_count = some 1 ∧
    (findTask c2s3 0).map MTask.status = some .retrying ∧
    c2s3.task_queue = [] :=
  ⟨rfl, rfl, rfl, rfl, rfl, rfl, rfl⟩

/-- Claim C4 (code bug): a task that fails once and then succeeds on
its retry ends Completed with `result = 7` but with the stale
`error = "boom"` still set — `_execute_task` never clears `error` on a
successful attempt, so `result` and `error` are not mutually
exclusive. -/
theorem C4_stale_error_on_completed :
    finish_task envRetryOk c4s2 0 = some c4s3 ∧
    finish_task envRetryOk c4s4 0 = some c4s5 ∧
    (findTask c4s5 0).map MTask.status = some .completed ∧
    (findTask c4s5 0).map MTask.result = some (some 7) ∧
    (findTask c4s5 0).map MTask.error = some (some "boom") :=
  ⟨rfl, rfl, rfl, rfl, rfl⟩

/-- Claim C9 (counterexample): `started_at` is written once per
attempt, not once per task: a task that is retried carries the
`started_at` of its second attempt (clock 2), not of its first
(clock 1). -/
theorem C9_started_at_rewritten_on_retry :
    (findTask c4s2 0).map MTask.started_at = some (some 1) ∧
    (findTask c4s5 0).map MTask.started_at = some (some 2) ∧
    (some 1 : Option Nat) ≠ some 2 :=
  ⟨rfl, rfl, by decide⟩

/-- Claim C5 (counterexample): cancelling a Pending task that is
already in the Ready Queue succeeds and marks it Cancelled, but the
queue entry survives, and the next `get_next_task` hands the cancelled
task to a worker, which marks it Running — the task is claimed after a
successful cancellation. -/
theorem C5_cancelled_task_still_claimed :
    (cancel_task c5s1 0).1 = true ∧
    (findTask c5s2 0).map MTask.status = some .cancelled ∧
    c5s2.task_queue = [(3, 0)] ∧
    claim_task c5s2 "agent_1" = some c5s3 ∧
    (findTask c5s3 0).map MTask.status = some .running :=
  ⟨rfl, rfl, rfl, rfl, rfl⟩

/-- Claim C3 (counterexample): four equal-priority tasks submitted in
id order 0, 1, 2, 3 are queued in that order, but successive dequeues
return ids 0, 2, 1, 3 — heapq with `Task.__lt__` comparing only
priority does not break ties first-in-first-out. -/
theorem C3_no_fifo_tie_break :
    c3s.task_queue = [(3, 0), (3, 1), (3, 2), (3, 3)] ∧
    (drainHeap c3s.task_queue).map Prod.snd = [0, 2, 1, 3] ∧
    (drainHeap c3s.task_queue).map Prod.snd ≠ [0, 1, 2, 3] :=
  ⟨rfl, rfl, by decide⟩

/-- Claim C3 (amended): successive dequeues return exactly the pushed
entries in ascending priority-ordinal order; among equal priorities
the order is the binary-heap extraction order, not insertion order. -/
theorem C3_amended_priority_order (es : List HEntry) :
    (drainHeap (List.foldl heapPush [] es)).Perm es ∧
    List.Sorted (· ≤ ·)
      ((drainHeap (List.foldl heapPush [] es)).map Prod.fst) := by
  constructor
  · exact (drainHeap_perm _).trans
      (by simpa using foldl_heapPush_perm es [])
  · show ((drainHeap (List.foldl heapPush [] es)).map
      Prod.fst).Pairwise (· ≤ ·)
    rw [List.pairwise_map]
    exact drainHeap_pairwise _ (isHeap_foldl_heapPush es [] isHeap_nil)

/-- Claim C8: `cancel_task` returns True exactly when the id is
registered and still Pending; in every other case it returns False and
the whole state — task table included — is unchanged. -/
theorem C8_cancel_iff_pending (s : TMState) (id : Nat) :
    ((cancel_task s id).1 = true ↔
      ∃ t, findTask s id = some t ∧ t.status = .pending) ∧
    ((cancel_task s id).1 = false → (cancel_task s id).2 = s) := by
  rcases hfind : findTask s id with _ | t
  · have hval : cancel_task s id = (false, s) := by
      unfold cancel_task
      rw [hfind]
    rw [hval]
    constructor
    · constructor
      · intro hc
        cases hc
      · rintro ⟨t, ht, _⟩
        cases ht
    · intro _
      rfl
  · by_cases hst : t.status = TaskStatus.pending
    · have hval : cancel_task s id
          = (true, writeTask s { t with status := .cancelled }) := by
        unfold cancel_task
        rw [hfind]
        simp [hst]
      rw [hval]
      constructor
      · constructor
        · intro _
          exact ⟨t, rfl, hst⟩
        · intro _
          rfl
      · intro hc
        cases hc
    · have hval : cancel_task s id = (false, s) := by
        unfold cancel_task
        rw [hfind]
        simp [hst]
      rw [hval]
      constructor
      · constructor
        · intro hc
          cases hc
        · rintro ⟨u, hu, hu2⟩
          cases hu
          exact absurd hu2 hst
      · intro _
        rfl

/-! ### Further concrete traces -/

/-- Dependency chain: task 0 free, task 1 depends on task 0; the
worker completes 0, which promotes 1, and then claims 1. -/
def c1s1 : TMState := (add_task initTM "a" .medium [] 0 300 none).1

def c1s2 : TMState := (add_task c1s1 "b" .medium [0] 0 300 none).1

def c1s3 : TMState := (claim_task c1s2 "w").getD initTM

def c1s4 : TMState := (finish_task envOk c1s3 0).getD initTM

def c1s5 : TMState := (claim_task c1s4 "w").getD initTM

/-- Task 0 free (and enqueued), task 1 Pending behind the unmet
dependency 0 — so 1 is registered but not in the ready queue. -/
def cw1 : TMState := (add_task initTM "a" .medium [] 0 300 none).1

def cw2 : TMState := (add_task cw1 "b" .medium [0] 0 300 none).1

/-- The task object `findTask c4s2 0`: attempt 1 in flight. -/
def c4w : MTask :=
  { id := 0
    name := "t"
    priority := .medium
    dependencies := []
    max_retries := 2
    timeout := 300
    created_at := 0
    scheduled_at := none
    started_at := some 1
    completed_at := none
    status := .running
    result := none
    error := none
    retry_count := 0
    agent_id := some "agent_1" }

/-- The task object `findTask c1s5 1`: running after its dependency
completed. -/
def c1t : MTask :=
  { id := 1
    name := "b"
    priority := .medium
    dependencies := [0]
    max_retries := 0
    timeout := 300
    created_at := 1
    scheduled_at := none
    started_at := some 4
    completed_at := none
    status := .running
    result := none
    error := none
    retry_count := 0
    agent_id := some "w" }

/-- The task object `findTask cw2 1`: Pending behind dependency 0. -/
def cwt : MTask :=
  { id := 1
    name := "b"
    priority := .medium
    dependencies := [0]
    max_retries := 0
    timeout := 300
    created_at := 1
    scheduled_at := none
    started_at := none
    completed_at := none
    status := .pending
    result := none
    error := none
    retry_count := 0
    agent_id := none }

theorem reach_c1s5 : Reachable envOk c1s5 :=
  Reachable.step _ _
    (Reachable.step _ _
      (Reachable.step _ _
        (Reachable.step _ _
          (Reachable.step _ _ Reachable.init
            (Step.add initTM "a" .medium [] 0 300 none))
          (Step.add c1s1 "b" .medium [0] 0 300 none))
        (Step.claim c1s2 c1s3 "w" rfl))
      (Step.finish c1s3 c1s4 0 rfl))
    (Step.claim c1s4 c1s5 "w" rfl)

theorem reach_c4s2 : Reachable envRetryOk c4s2 :=
  Reachable.step _ _ (Reachable.step _ _ Reachable.init
    (Step.add initTM "t" .medium [] 2 300 none))
    (Step.claim c4s1 c4s2 "agent_1" rfl)

theorem steps_c4s2_c4s5 : Steps envRetryOk c4s2 c4s5 :=
  Steps.tail _ _ _ (Steps.tail _ _ _ (Steps.tail _ _ _ (Steps.refl _)
    (Step.finish c4s2 c4s3 0 rfl))
    (Step.claim c4s3 c4s4 "agent_2" rfl))
    (Step.finish c4s4 c4s5 0 rfl)

theorem reach_c6s3 : Reachable envRaise c6s3 :=
  Reachable.step _ _ (Reachable.step _ _ (Reachable.step _ _
    Reachable.init (Step.add initTM "t" .medium [] 0 300 none))
    (Step.claim c6s1 c6s2 "agent_1" rfl))
    (Step.finish c6s2 c6s3 0 rfl)

theorem reach_cw2 : Reachable envOk cw2 :=
  Reachable.step _ _ (Reachable.step _ _ Reachable.init
    (Step.add initTM "a" .medium [] 0 300 none))
    (Step.add cw1 "b" .medium [0] 0 300 none)

/-! ### Timestamp evolution -/

theorem timestamps_refl (t : MTask) :
    t.created_at = t.created_at ∧
    (∀ a, t.completed_at = some a → t.completed_at = some a) ∧
    (∀ a, t.started_at = some a → ∃ b, t.started_at = some b ∧ a ≤ b) :=
  ⟨rfl, fun _ ha => ha, fun a ha => ⟨a, ha, Nat.le_refl a⟩⟩

/-- One step moves a task record forward: `created_at` is unchanged,
`completed_at` keeps its value once set, and `started_at`, though it
may be rewritten on a later attempt, never moves backwards. -/
theorem timestamps_step (env : Env) (s s2 : TMState)
    (hI : Inv s) (hstep : Step env s s2) (id : Nat) (t : MTask)
    (hfind : findTask s id = some t) :
    ∃ t2, findTask s2 id = some t2 ∧
      t2.created_at = t.created_at ∧
      (∀ a, t.completed_at = some a → t2.completed_at = some a) ∧
      (∀ a, t.started_at = some a →
        ∃ b, t2.started_at = some b ∧ a ≤ b) := by
  obtain ⟨htmem, htid⟩ := findTask_some s id t hfind
  cases hstep with
  | add name priority dependencies max_retries timeout scheduled_at =>
      have hfind2 : findTask (addRegister s name priority dependencies
          max_retries timeout scheduled_at) id = some t := by
        unfold findTask at hfind ⊢
        exact find?_append_some _ s.tasks _ t hfind
      unfold add_task
      by_cases hce : can_execute_task
          (addRegister s name priority dependencies max_retries timeout
            scheduled_at)
          (newTask s name priority dependencies max_retries timeout
            scheduled_at) = true
      · rw [if_pos hce]
        exact ⟨t, hfind2, timestamps_refl t⟩
      · rw [if_neg hce]
        exact ⟨t, hfind2, timestamps_refl t⟩
  | claim a aid h =>
      unfold claim_task get_next_task at h
      rcases hpop : heapPop s.task_queue with _ | ⟨e, q2⟩
      · rw [hpop] at h
        cases h
      · rw [hpop] at h
        simp only at h
        rcases hfind2 : findTask { s with task_queue := q2 } e.2
            with _ | u
        · rw [hfind2] at h
          cases h
        · rw [hfind2] at h
          simp only [Option.some.injEq] at h
          subst h
          by_cases hene : e.2 = id
          · have hfu : findTask s id = some u := by
              rw [← hene]
              exact hfind2
            have hut : u = t := Option.some.inj (hfu.symm.trans hfind)
            subst hut
            obtain ⟨humem, huid⟩ := findTask_some s id u hfu
            refine ⟨{ u with
                agent_id := some aid
                started_at := some s.clock
                status := TaskStatus.running }, ?_, rfl,
              fun a ha => ha,
              fun a ha => ⟨s.clock, rfl,
                Nat.le_of_lt (hI.clock_started u humem a ha)⟩⟩
            have hw := findTask_writeTask_self
              { s with task_queue := q2, clock := s.clock + 1 }
              { u with
                  agent_id := some aid
                  started_at := some s.clock
                  status := TaskStatus.running }
              u hI.ids_nodup humem rfl
            rw [← huid]
            exact hw
          · obtain ⟨humem, huid⟩ := findTask_some _ e.2 u hfind2
            refine ⟨t, ?_, timestamps_refl t⟩
            rw [findTask_writeTask_ne _ _ id (by simpa [huid] using hene)]
            exact hfind
  | finish a tid h =>
      unfold finish_task at h
      split at h
      next => cases h
      next u hfindu =>
        split at h
        next hstu =>
          obtain ⟨humem, huid⟩ := findTask_some s tid u hfindu
          split at h
          next v henv =>
            simp only [Option.some.injEq] at h
            subst h
            rw [update_task_status_completed _ _ rfl]
            by_cases hueq : u.id = id
            · have hut : u = t := mem_id_unique s hI.ids_nodup u t
                humem htmem (by rw [hueq, htid])
              subst hut
              have hnone : u.completed_at = none := by
                by_contra hc
                have hcs := hI.completedAt_status u humem hc
                rw [hstu] at hcs
                cases hcs
              refine ⟨{ u with
                  result := some v
                  completed_at := some s.clock
                  status := TaskStatus.completed }, ?_, rfl, ?_,
                fun a ha => ⟨a, ha, Nat.le_refl a⟩⟩
              · have hw := findTask_writeTask_self
                  { s with clock := s.clock + 1 }
                  { u with
                      result := some v
                      completed_at := some s.clock
                      status := TaskStatus.completed }
                  u hI.ids_nodup humem rfl
                show findTask (writeTask { s with clock := s.clock + 1 }
                  { u with
                      result := some v
                      completed_at := some s.clock
                      status := TaskStatus.completed }) id = some
                  { u with
                      result := some v
                      completed_at := some s.clock
                      status := TaskStatus.completed }
                rw [← hueq]
                exact hw
              · intro a ha
                rw [hnone] at ha
                cases ha
            · refine ⟨t, ?_, timestamps_refl t⟩
              show findTask (writeTask { s with clock := s.clock + 1 }
                { u with
                    result := some v
                    completed_at := some s.clock
                    status := TaskStatus.completed }) id = some t
              exact (findTask_writeTask_ne _ _ id (by exact hueq)).trans
                hfind
          next msg henv =>
            dsimp only at h
            split at h
            next hrc =>
              unfold retry_task at h
              split at h
              next hrc2 =>
                simp only [Option.some.injEq] at h
                subst h
                rw [update_task_status_pending _ _ rfl]
                by_cases hueq : u.id = id
                · have hut : u = t := mem_id_unique s hI.ids_nodup u t
                    humem htmem (by rw [hueq, htid])
                  subst hut
                  refine ⟨{ u with
                      error := some msg
                      retry_count := u.retry_count + 1
                      status := TaskStatus.pending }, ?_, rfl,
                    fun a ha => ha, fun a ha => ⟨a, ha, Nat.le_refl a⟩⟩
                  have hw := findTask_writeTask_self
                    (writeTask s
                      { u with
                          error := some msg
                          retry_count := u.retry_count + 1
                          status := TaskStatus.retrying })
                    { u with
                        error := some msg
                        retry_count := u.retry_count + 1
                        status := TaskStatus.pending }
                    { u with
                        error := some msg
                        retry_count := u.retry_count + 1
                        status := TaskStatus.retrying }
                    (by rw [writeTask_map_id]; exact hI.ids_nodup)
                    (self_mem_writeTask s _ u humem rfl) rfl
                  rw [← hueq]
                  exact hw
                · refine ⟨t, ?_, timestamps_refl t⟩
                  show findTask (writeTask (writeTask s
                      { u with
                          error := some msg
                          retry_count := u.retry_count + 1
                          status := TaskStatus.retrying })
                      { u with
                          error := some msg
                          retry_count := u.retry_count + 1
                          status := TaskStatus.pending }) id = some t
                  exact (findTask_writeTask_ne _ _ id
                    (by exact hueq)).trans
                    ((findTask_writeTask_ne _ _ id (by exact hueq)).trans
                      hfind)
              next hrc2 =>
                simp only [Option.some.injEq] at h
                subst h
                rw [update_task_status_retrying _ _ rfl]
                by_cases hueq : u.id = id
                · have hut : u = t := mem_id_unique s hI.ids_nodup u t
                    humem htmem (by rw [hueq, htid])
                  subst hut
                  refine ⟨{ u with
                      error := some msg
                      retry_count := u.retry_count + 1
                      status := TaskStatus.retrying }, ?_, rfl,
                    fun a ha => ha, fun a ha => ⟨a, ha, Nat.le_refl a⟩⟩
                  have hw := findTask_writeTask_self s
                    { u with
                        error := some msg
                        retry_count := u.retry_count + 1
                        status := TaskStatus.retrying }
                    u hI.ids_nodup humem rfl
                  rw [← hueq]
                  exact hw
                · refine ⟨t, ?_, timestamps_refl t⟩
                  show findTask (writeTask s
                      { u with
                          error := some msg
                          retry_count := u.retry_count + 1
                          status := TaskStatus.retrying }) id = some t
                  exact (findTask_writeTask_ne _ _ id
                    (by exact hueq)).trans hfind
            next hrc =>
              simp only [Option.some.injEq] at h
              subst h
              rw [update_task_status_failed _ _ rfl (by simpa using hrc)]
              by_cases hueq : u.id = id
              · have hut : u = t := mem_id_unique s hI.ids_nodup u t
                  humem htmem (by rw [hueq, htid])
                subst hut
                refine ⟨{ u with
                    error := some msg
                    status := TaskStatus.failed }, ?_, rfl,
                  fun a ha => ha, fun a ha => ⟨a, ha, Nat.le_refl a⟩⟩
                have hw := findTask_writeTask_self s
                  { u with
                      error := some msg
                      status := TaskStatus.failed }
                  u hI.ids_nodup humem rfl
                rw [← hueq]
                exact hw
              · refine ⟨t, ?_, timestamps_refl t⟩
                show findTask (writeTask s
                    { u with
                        error := some msg
                        status := TaskStatus.failed }) id = some t
                exact (findTask_writeTask_ne _ _ id (by exact hueq)).trans
                  hfind
        next hstu => cases h
  | cancel cid =>
      by_cases hcid : cid = id
      · subst hcid
        by_cases hst : t.status = TaskStatus.pending
        · have hval : cancel_task s cid = (true, writeTask s
              { t with status := TaskStatus.cancelled }) := by
            unfold cancel_task
            rw [hfind]
            simp [hst]
          rw [hval]
          refine ⟨{ t with status := TaskStatus.cancelled }, ?_, rfl,
            fun a ha => ha, fun a ha => ⟨a, ha, Nat.le_refl a⟩⟩
          have hw := findTask_writeTask_self s
            { t with status := TaskStatus.cancelled } t
            hI.ids_nodup htmem rfl
          rw [← htid]
          exact hw
        · have hval : cancel_task s cid = (false, s) := by
            unfold cancel_task
            rw [hfind]
            simp [hst]
          rw [hval]
          exact ⟨t, hfind, timestamps_refl t⟩
      · rcases hfindc : findTask s cid with _ | u
        · have hval : cancel_task s cid = (false, s) := by
            unfold cancel_task
            rw [hfindc]
          rw [hval]
          exact ⟨t, hfind, timestamps_refl t⟩
        · obtain ⟨humem, huid⟩ := findTask_some s cid u hfindc
          by_cases hstu : u.status = TaskStatus.pending
          · have hval : cancel_task s cid = (true, writeTask s
                { u with status := TaskStatus.cancelled }) := by
              unfold cancel_task
              rw [hfindc]
              simp [hstu]
            rw [hval]
            refine ⟨t, ?_, timestamps_refl t⟩
            exact (findTask_writeTask_ne _ _ id
              (by simpa [huid] using hcid)).trans hfind
          · have hval : cancel_task s cid = (false, s) := by
              unfold cancel_task
              rw [hfindc]
              simp [hstu]
            rw [hval]
            exact ⟨t, hfind, timestamps_refl t⟩

/-- A Pending task that is not in the ready queue: cancelling it
succeeds and it stays Cancelled and unqueued in every later state. -/
theorem cancel_pending_unqueued_stuck (env : Env) (s : TMState)
    (id : Nat) (t : MTask) (hI : Inv s)
    (hfind : findTask s id = some t) (hst : t.status = .pending)
    (hq : id ∉ s.task_queue.map Prod.snd) :
    (cancel_task s id).1 = true ∧
    ∀ s2, Steps env (cancel_task s id).2 s2 →
      findTask s2 id = some { t with status := .cancelled } ∧
      id ∉ s2.task_queue.map Prod.snd := by
  obtain ⟨htmem, htid⟩ := findTask_some s id t hfind
  have hval : cancel_task s id
      = (true, writeTask s { t with status := .cancelled }) := by
    unfold cancel_task
    rw [hfind]
    simp [hst]
  have hI2 : Inv (writeTask s { t with status := .cancelled }) := by
    have h2 := inv_step env s _ hI (Step.cancel s id)
    rw [hval] at h2
    exact h2
  have hfind2 : findTask (writeTask s { t with status := .cancelled }) id
      = some { t with status := .cancelled } := by
    have hw := findTask_writeTask_self s { t with status := .cancelled } t
      hI.ids_nodup htmem rfl
    rw [← htid]
    exact hw
  have hq2 : id ∉ (writeTask s
      { t with status := .cancelled }).task_queue.map Prod.snd := by
    rw [writeTask_queue]
    exact hq
  refine ⟨by rw [hval], ?_⟩
  intro s2 hsteps
  rw [hval] at hsteps
  exact stuck_steps env _ s2 id _ hI2 hsteps hfind2 (Or.inl rfl) hq2

/-! ### The remaining claims -/

/-- Claim C1: in every reachable state, a Running task has every
dependency on the completed-task list, and each such dependency is a
registered task whose status is Completed — a task never transitions
to Running before all of its dependencies have completed. -/
theorem C1_running_requires_completed_deps (env : Env) (s : TMState)
    (hreach : Reachable env s) (id : Nat) (t : MTask)
    (hfind : findTask s id = some t) (hrun : t.status = .running) :
    ∀ d ∈ t.dependencies, d ∈ s.completed_tasks ∧
      ∃ u, findTask s d = some u ∧ u.status = .completed := by
  have hI := reachable_inv env s hreach
  obtain ⟨htmem, _⟩ := findTask_some s id t hfind
  intro d hd
  have hdc := hI.running_deps t htmem hrun d hd
  refine ⟨hdc, ?_⟩
  obtain ⟨u, hu, huid⟩ := hI.completed_mem d hdc
  exact ⟨u, findTask_of_mem s hI.ids_nodup u d hu huid,
    hI.completed_status d hdc u hu huid⟩

theorem C1_witness :
    findTask c1s5 1 = some c1t ∧ c1t.status = TaskStatus.running ∧
    ∀ d ∈ c1t.dependencies, d ∈ c1s5.completed_tasks ∧
      ∃ u, findTask c1s5 d = some u ∧ u.status = TaskStatus.completed :=
  ⟨rfl, rfl, C1_running_requires_completed_deps envOk c1s5 reach_c1s5 1
    c1t rfl rfl⟩

/-- Claim C6: a task on the failed-task list is not on the
completed-task list, is registered with terminal status Failed, and no
task sitting in the Ready Queue lists it as a dependency — a failed
task never unblocks its dependents. -/
theorem C6_failed_never_unblocks (env : Env) (s : TMState)
    (hreach : Reachable env s) (id : Nat) (hf : id ∈ s.failed_tasks) :
    id ∉ s.completed_tasks ∧
    (∃ t, findTask s id = some t ∧ t.status = .failed) ∧
    ∀ e ∈ s.task_queue, ∀ t ∈ s.tasks, t.id = e.2 →
      id ∉ t.dependencies := by
  have hI := reachable_inv env s hreach
  obtain ⟨u, hu, huid⟩ := hI.failed_mem id hf
  have hufail := hI.failed_status id hf u hu huid
  have hnc : id ∉ s.completed_tasks := by
    intro hc
    have hcs := hI.completed_status id hc u hu huid
    rw [hufail] at hcs
    cases hcs
  refine ⟨hnc, ⟨u, findTask_of_mem s hI.ids_nodup u id hu huid,
    hufail⟩, ?_⟩
  intro e he t ht htide hdep
  exact hnc (hI.queue_deps e he t ht htide id hdep)

theorem C6_witness :
    0 ∈ c6s3.failed_tasks ∧ 0 ∉ c6s3.completed_tasks ∧
    (∃ t, findTask c6s3 0 = some t ∧ t.status = TaskStatus.failed) ∧
    ∀ e ∈ c6s3.task_queue, ∀ t ∈ c6s3.tasks, t.id = e.2 →
      0 ∉ t.dependencies :=
  ⟨by decide, C6_failed_never_unblocks envRaise c6s3 reach_c6s3 0
    (by decide)⟩

/-- Claim C9 (amended): over any run of the system, `created_at` never
changes after creation and `completed_at` keeps its value once set;
`started_at` is rewritten on each attempt (see the counterexample) but
never moves backwards. -/
theorem C9_amended_timestamps_monotone (env : Env) (s s2 : TMState)
    (id : Nat) (t : MTask) (hreach : Reachable env s)
    (hsteps : Steps env s s2) (hfind : findTask s id = some t) :
    ∃ t2, findTask s2 id = some t2 ∧
      t2.created_at = t.created_at ∧
      (∀ a, t.completed_at = some a → t2.completed_at = some a) ∧
      (∀ a, t.started_at = some a →
        ∃ b, t2.started_at = some b ∧ a ≤ b) := by
  have hI := reachable_inv env s hreach
  induction hsteps with
  | refl => exact ⟨t, hfind, timestamps_refl t⟩
  | tail sb sc hsteps hstep ih =>
      obtain ⟨u, hu, huc, hucomp, hustart⟩ := ih
      obtain ⟨t2, ht2, htc, htcomp, htstart⟩ :=
        timestamps_step env sb sc (steps_inv env s sb hI hsteps) hstep
          id u hu
      refine ⟨t2, ht2, htc.trans huc,
        fun a ha => htcomp a (hucomp a ha), ?_⟩
      intro a ha
      obtain ⟨b, hb, hab⟩ := hustart a ha
      obtain ⟨c, hc2, hbc⟩ := htstart b hb
      exact ⟨c, hc2, Nat.le_trans hab hbc⟩

theorem C9_amended_witness :
    findTask c4s2 0 = some c4w ∧
    ∃ t2, findTask c4s5 0 = some t2 ∧
      t2.created_at = c4w.created_at ∧
      (∀ a, c4w.completed_at = some a → t2.completed_at = some a) ∧
      (∀ a, c4w.started_at = some a →
        ∃ b, t2.started_at = some b ∧ a ≤ b) :=
  ⟨rfl, C9_amended_timestamps_monotone envRetryOk c4s2 c4s5 0 c4w
    reach_c4s2 steps_c4s2_c4s5 rfl⟩

/-- Claim C5 (amended): cancelling a Pending task succeeds, and when
the task is not sitting in the Ready Queue at that moment, it is
Cancelled in every later state and never enters the queue — so it is
never handed to a worker.  (For a task already inside the queue the
code diverges from the spec: see the counterexample.) -/
theorem C5_amended_cancel_unqueued_never_claimed (env : Env)
    (s : TMState) (id : Nat) (t : MTask) (hreach : Reachable env s)
    (hfind : findTask s id = some t) (hst : t.status = .pending)
    (hq : id ∉ s.task_queue.map Prod.snd) :
    (cancel_task s id).1 = true ∧
    ∀ s2, Steps env (cancel_task s id).2 s2 →
      (findTask s2 id).map MTask.status = some .cancelled ∧
      id ∉ s2.task_queue.map Prod.snd := by
  have h := cancel_pending_unqueued_stuck env s id t
    (reachable_inv env s hreach) hfind hst hq
  refine ⟨h.1, fun s2 hs2 => ?_⟩
  obtain ⟨h1, h2⟩ := h.2 s2 hs2
  rw [h1]
  exact ⟨rfl, h2⟩

theorem C5_amended_witness :
    findTask cw2 1 = some cwt ∧ cwt.status = TaskStatus.pending ∧
    1 ∉ cw2.task_queue.map Prod.snd ∧
    (cancel_task cw2 1).1 = true ∧
    (findTask (cancel_task cw2 1).2 1).map MTask.status
      = some TaskStatus.cancelled ∧
    1 ∉ (cancel_task cw2 1).2.task_queue.map Prod.snd := by
  have h := C5_amended_cancel_unqueued_never_claimed envOk cw2 1 cwt
    reach_cw2 rfl rfl (by decide)
  obtain ⟨h1, h2⟩ := h.2 (cancel_task cw2 1).2 (Steps.refl _)
  exact ⟨rfl, rfl, by decide, h.1, h1, h2⟩

/-- Claim C10: a Pending task with an unmet dependency is not in the
Ready Queue, so a successful cancellation is fully effective: the call
returns True, and in every later state the task is the same record
marked Cancelled and is never promoted into the queue, even after its
dependencies complete. -/
theorem C10_cancel_unmet_dep_effective (env : Env) (s : TMState)
    (id : Nat) (t : MTask) (d : Nat) (hreach : Reachable env s)
    (hfind : findTask s id = some t) (hst : t.status = .pending)
    (hd : d ∈ t.dependencies) (hdep : d ∉ s.completed_tasks) :
    (cancel_task s id).1 = true ∧
    ∀ s2, Steps env (cancel_task s id).2 s2 →
      findTask s2 id = some { t with status := .cancelled } ∧
      id ∉ s2.task_queue.map Prod.snd := by
  have hI := reachable_inv env s hreach
  obtain ⟨htmem, htid⟩ := findTask_some s id t hfind
  have hq : id ∉ s.task_queue.map Prod.snd := by
    intro hmem
    rcases List.mem_map.mp hmem with ⟨e, he, heid⟩
    exact hdep (hI.queue_deps e he t htmem (htid.trans heid.symm) d hd)
  exact cancel_pending_unqueued_stuck env s id t hI hfind hst hq

theorem C10_witness :
    0 ∈ cwt.dependencies ∧ 0 ∉ cw2.completed_tasks ∧
    (cancel_task cw2 1).1 = true ∧
    findTask (cancel_task cw2 1).2 1
      = some { cwt with status := TaskStatus.cancelled } ∧
    1 ∉ (cancel_task cw2 1).2.task_queue.map Prod.snd := by
  have h := C10_cancel_unmet_dep_effective envOk cw2 1 cwt 0
    reach_cw2 rfl rfl (by decide) (by decide)
  obtain ⟨h1, h2⟩ := h.2 (cancel_task cw2 1).2 (Steps.refl _)
  exact ⟨by decide, by decide, h.1, h1, h2⟩

end Emberv3
